import Mathlib

/-!
Verification development for the gdoc-cli repository.

The development shallowly embeds the two core source modules:

* the markdown-to-Google-Docs operation compiler (`MarkdownToDocsConverter`
  in the converter module): token trees produced by the `marked` lexer are
  compiled into an ordered script of positional edit requests, maintaining a
  1-based running cursor (`currentIndex`);
* the document-section parser (`document-sections.js`): positioned
  structural elements of a retrieved document are parsed into headings,
  flat sections, a nested outline, delete requests and search results.

Modelling conventions:

* JS numbers used as character indices are modelled as `Int` (JS never
  truncates subtraction; e.g. `endIndex - 1` must behave additively).
* JS strings are modelled as `String`; `String.length` (code points) agrees
  with JS `length` (UTF-16 units) on the ASCII texts of interest, and
  `toLower` is length-preserving in both models on ASCII.
* objects that can lack a field are modelled with `Option`; the JS falsy
  check `x || ''` becomes `Option.getD _ ""`.
* the fixed light-gray `backgroundColor` rgb literal (0.95, 0.95, 0.95) is
  represented by a `Bool` flag; no claim depends on the numeric color.
-/

namespace Gdoc

/-- JS `String.prototype.length` of a string, as an `Int` (all index
arithmetic is over `Int` to match JS number arithmetic). -/
def strLen (s : String) : Int := (s.length : Int)

/-!
## Token contract of the `marked` lexer

Constructors carry exactly the fields the embedded code reads:
`type`, `depth`, `ordered`, `items`, `header`, `rows`, `text`, `tokens`,
`href`.  `list` and `table` tokens carry no `text` field in `marked`, so
reading `token.text` on them yields `undefined` (modelled as contributing
the empty string / length 0 below).
-/
inductive Tok where
  | heading (depth : Nat) (text : String) (toks : List Tok)
  | paragraph (text : String) (toks : List Tok)
  | list (ordered : Bool) (items : List (List Tok))
  | code (text : String)
  | table (header : List (List Tok)) (rows : List (List (List Tok)))
  | space
  | strong (text : String) (toks : List Tok)
  | em (text : String) (toks : List Tok)
  | link (href : String) (text : String) (toks : List Tok)
  | codespan (text : String)
  | text (text : String) (toks : List Tok)
deriving Repr, Inhabited

/-- The `token.tokens` field (empty list when the token kind carries no
nested token sequence in `marked`: `list` has `items`, `table` has
`header`/`rows`, `code`/`codespan`/`space` have none). -/
def Tok.children : Tok → List Tok
  | .heading _ _ c => c
  | .paragraph _ c => c
  | .strong _ c => c
  | .em _ c => c
  | .link _ _ c => c
  | .text _ c => c
  | .list _ _ => []
  | .code _ => []
  | .table _ _ => []
  | .space => []
  | .codespan _ => []

/--
`MarkdownToDocsConverter.extractPlainText(tokens)`: flatten a token list to
its visible text.  Branch order follows the JS dispatch:
1. `strong`/`em`/`link` recurse into `token.tokens`;
2. any token with a nonempty `token.tokens` recurses into it;
3. `text`/`codespan` contribute `token.text`;
4. `space` contributes a single space;
5. otherwise `token.text` when present (`code`), else nothing
   (`list`/`table`, which have no `text` field).
-/
def extractPlainText : List Tok → String
  | [] => ""
  | .strong _ c :: ts => extractPlainText c ++ extractPlainText ts
  | .em _ c :: ts => extractPlainText c ++ extractPlainText ts
  | .link _ _ c :: ts => extractPlainText c ++ extractPlainText ts
  | .heading _ s c :: ts =>
      (if c.isEmpty then s else extractPlainText c) ++ extractPlainText ts
  | .paragraph s c :: ts =>
      (if c.isEmpty then s else extractPlainText c) ++ extractPlainText ts
  | .text s c :: ts =>
      (if c.isEmpty then s else extractPlainText c) ++ extractPlainText ts
  | .codespan s :: ts => s ++ extractPlainText ts
  | .space :: ts => " " ++ extractPlainText ts
  | .code s :: ts => s ++ extractPlainText ts
  | .list _ _ :: ts => extractPlainText ts
  | .table _ _ :: ts => extractPlainText ts

/-!
## Edit operation script (Google Docs batch requests)
-/

/-- A half-open 1-based index range `{startIndex, endIndex}`. -/
structure DocRange where
  startIndex : Int
  endIndex : Int
deriving Repr, DecidableEq, Inhabited

/-- The `textStyle` payload of an `updateTextStyle` request.  Only the keys
the converter ever writes are present; `background` abstracts the fixed
light-gray `backgroundColor` rgb literal. -/
structure TextStyle where
  bold : Option Bool := none
  italic : Option Bool := none
  linkUrl : Option String := none
  fontFamily : Option String := none
  fontSizePt : Option Nat := none
  background : Option Bool := none
deriving Repr, DecidableEq, Inhabited

/-- `{ textStyle: { bold: true } }` -/
def boldStyle : TextStyle := { bold := some true }

/-- `{ textStyle: { italic: true } }` -/
def italicStyle : TextStyle := { italic := some true }

/-- `{ textStyle: { link: { url } } }` -/
def linkStyle (url : String) : TextStyle := { linkUrl := some url }

/-- Inline-code style: Courier New + light-gray background. -/
def codespanStyle : TextStyle :=
  { fontFamily := some "Courier New", background := some true }

/-- Code-block style: Courier New, 10pt, light-gray background. -/
def codeBlockStyle : TextStyle :=
  { fontFamily := some "Courier New", fontSizePt := some 10, background := some true }

/-- One batch-update request, tagged by variant.  Each constructor mirrors
the JS object literal pushed by the converter / section module. -/
inductive Request where
  | insertText (index : Int) (text : String)
  | updateTextStyle (range : DocRange) (style : TextStyle) (fields : String)
  | updateParagraphStyle (range : DocRange) (namedStyleType : String) (fields : String)
  | createParagraphBullets (range : DocRange) (bulletPreset : String)
  | deleteContentRange (range : DocRange)
deriving Repr, DecidableEq, Inhabited

/-- The length the inline-formatting pass uses for a child token:
`extractPlainText(token.tokens).length` for `strong`/`em`/`link`,
`token.text.length` for `text`/`codespan`, `0` otherwise. -/
def inlineLen : Tok → Int
  | .strong _ c => strLen (extractPlainText c)
  | .em _ c => strLen (extractPlainText c)
  | .link _ _ c => strLen (extractPlainText c)
  | .text s _ => strLen s
  | .codespan s => strLen s
  | _ => 0

/--
`MarkdownToDocsConverter.applyInlineFormatting(tokens, startOffset)` with
the running `currentOffset` made explicit (the JS initialises it to 0).
For each child: compute `length` (see `inlineLen`), emit a style request
for `strong`/`em`/`link`/`codespan` over
`[startOffset+currentOffset, startOffset+currentOffset+length)`, recurse
into `token.tokens` at the same token start, then advance the offset by
`length`.  Requests are listed in JS push order.
-/
def applyInlineFormatting : List Tok → Int → Int → List Request
  | [], _, _ => []
  | .strong _ c :: ts, s, off =>
      let len := strLen (extractPlainText c)
      .updateTextStyle ⟨s + off, s + off + len⟩ boldStyle "bold"
        :: (applyInlineFormatting c (s + off) 0 ++ applyInlineFormatting ts s (off + len))
  | .em _ c :: ts, s, off =>
      let len := strLen (extractPlainText c)
      .updateTextStyle ⟨s + off, s + off + len⟩ italicStyle "italic"
        :: (applyInlineFormatting c (s + off) 0 ++ applyInlineFormatting ts s (off + len))
  | .link href _ c :: ts, s, off =>
      let len := strLen (extractPlainText c)
      .updateTextStyle ⟨s + off, s + off + len⟩ (linkStyle href) "link"
        :: (applyInlineFormatting c (s + off) 0 ++ applyInlineFormatting ts s (off + len))
  | .codespan t :: ts, s, off =>
      .updateTextStyle ⟨s + off, s + off + strLen t⟩ codespanStyle
          "weightedFontFamily,backgroundColor"
        :: applyInlineFormatting ts s (off + strLen t)
  | .text t c :: ts, s, off =>
      applyInlineFormatting c (s + off) 0 ++ applyInlineFormatting ts s (off + strLen t)
  | .heading _ _ c :: ts, s, off =>
      applyInlineFormatting c (s + off) 0 ++ applyInlineFormatting ts s off
  | .paragraph _ c :: ts, s, off =>
      applyInlineFormatting c (s + off) 0 ++ applyInlineFormatting ts s off
  | .space :: ts, s, off => applyInlineFormatting ts s off
  | .code _ :: ts, s, off => applyInlineFormatting ts s off
  | .list _ _ :: ts, s, off => applyInlineFormatting ts s off
  | .table _ _ :: ts, s, off => applyInlineFormatting ts s off

/-- Entry of `this.tableInsertRequests`. -/
structure TableInsertRequest where
  placeholderIndex : Int
  placeholderLength : Int
  rows : Nat
  cols : Nat
deriving Repr, DecidableEq, Inhabited

/-- Entry of a table's `cellData`. -/
structure CellData where
  row : Nat
  col : Nat
  text : String
  bold : Bool
deriving Repr, DecidableEq, Inhabited

/-- Entry of `this.tables` (metadata for the later population pass). -/
structure TableMeta where
  placeholderIndex : Int
  placeholderLength : Int
  rows : Nat
  cols : Nat
  cellData : List CellData
deriving Repr, DecidableEq, Inhabited

/-- The converter's mutable instance state, threaded explicitly.
`convert` resets all four fields, so one conversion is a pure fold. -/
structure ConvState where
  requests : List Request
  tableInsertRequests : List TableInsertRequest
  currentIndex : Int
  tables : List TableMeta
deriving Repr, DecidableEq, Inhabited

/-- `addHeading(token)`. -/
def addHeading (st : ConvState) (depth : Nat) (toks : List Tok) : ConvState :=
  let text := extractPlainText toks ++ "\n"
  let startIndex := st.currentIndex
  let newIndex := st.currentIndex + strLen text
  { st with
    requests := st.requests ++
      ([.insertText startIndex text,
        .updateParagraphStyle ⟨startIndex, newIndex - 1⟩
          ("HEADING_" ++ toString depth) "namedStyleType"]
        ++ applyInlineFormatting toks startIndex 0),
    currentIndex := newIndex }

/-- `addParagraph(token)`. -/
def addParagraph (st : ConvState) (toks : List Tok) : ConvState :=
  let text := extractPlainText toks ++ "\n"
  let startIndex := st.currentIndex
  let newIndex := st.currentIndex + strLen text
  { st with
    requests := st.requests ++
      ([.insertText startIndex text] ++ applyInlineFormatting toks startIndex 0),
    currentIndex := newIndex }

/-- One iteration of the item loop in `addList(token)`. -/
def addListItem (ordered : Bool) (st : ConvState) (itemToks : List Tok) : ConvState :=
  let text := extractPlainText itemToks ++ "\n"
  let startIndex := st.currentIndex
  let newIndex := st.currentIndex + strLen text
  { st with
    requests := st.requests ++
      ([.insertText startIndex text,
        .createParagraphBullets ⟨startIndex, newIndex - 1⟩
          (if ordered then "NUMBERED_DECIMAL_ALPHA_ROMAN" else "BULLET_DISC_CIRCLE_SQUARE")]
        ++ applyInlineFormatting itemToks startIndex 0),
    currentIndex := newIndex }

/-- `addList(token)`. -/
def addList (st : ConvState) (ordered : Bool) (items : List (List Tok)) : ConvState :=
  items.foldl (addListItem ordered) st

/-- `addCodeBlock(token)` : literal text plus two newlines, then monospace
styling over all but the two trailing newlines. -/
def addCodeBlock (st : ConvState) (codeText : String) : ConvState :=
  let text := codeText ++ "\n\n"
  let startIndex := st.currentIndex
  let newIndex := st.currentIndex + strLen text
  { st with
    requests := st.requests ++
      [.insertText startIndex text,
       .updateTextStyle ⟨startIndex, newIndex - 2⟩ codeBlockStyle
         "weightedFontFamily,fontSize,backgroundColor"],
    currentIndex := newIndex }

/-- `addTable(token)` : insert a `[TABLE:RxC]` placeholder paragraph and
record metadata (header cells bold on row 0, then data cells row-major). -/
def addTable (st : ConvState) (header : List (List Tok))
    (rows : List (List (List Tok))) : ConvState :=
  let nrows := rows.length + 1
  let cols := header.length
  let tableStartIndex := st.currentIndex
  let placeholder := "[TABLE:" ++ toString nrows ++ "x" ++ toString cols ++ "]\n"
  let headerCells := header.enum.map fun p =>
    CellData.mk 0 p.fst (extractPlainText p.snd) true
  let dataCells := rows.enum.flatMap fun r =>
    r.snd.enum.map fun p => CellData.mk (r.fst + 1) p.fst (extractPlainText p.snd) false
  { st with
    requests := st.requests ++ [.insertText tableStartIndex placeholder],
    currentIndex := st.currentIndex + strLen placeholder,
    tables := st.tables ++
      [⟨tableStartIndex, strLen placeholder, nrows, cols, headerCells ++ dataCells⟩],
    tableInsertRequests := st.tableInsertRequests ++
      [⟨tableStartIndex, strLen placeholder, nrows, cols⟩] }

/-- `processToken(token)` : dispatch on the block token type; `space` is
skipped, unsupported types are logged and skipped. -/
def processToken (st : ConvState) : Tok → ConvState
  | .heading depth _ toks => addHeading st depth toks
  | .paragraph _ toks => addParagraph st toks
  | .list ordered items => addList st ordered items
  | .code t => addCodeBlock st t
  | .table header rows => addTable st header rows
  | .space => st
  | .strong _ _ => st
  | .em _ _ => st
  | .link _ _ _ => st
  | .codespan _ => st
  | .text _ _ => st

/-- `convert(markdown)` : reset the state and fold `processToken` over the
lexer's top-level token list. -/
def convert (tokens : List Tok) : ConvState :=
  tokens.foldl processToken ⟨[], [], 1, []⟩

/-- Total length of all text carried by `insertText` requests of a script
(table placeholder text included). -/
def insertedLen : List Request → Int
  | [] => 0
  | .insertText _ t :: rs => strLen t + insertedLen rs
  | .updateTextStyle _ _ _ :: rs => insertedLen rs
  | .updateParagraphStyle _ _ _ :: rs => insertedLen rs
  | .createParagraphBullets _ _ :: rs => insertedLen rs
  | .deleteContentRange _ :: rs => insertedLen rs

/-- Every index-bearing field of a request (the `insertText` location index
and the range endpoints of the styled/bulleted/deleted variants). -/
def opIndices : Request → List Int
  | .insertText i _ => [i]
  | .updateTextStyle r _ _ => [r.startIndex, r.endIndex]
  | .updateParagraphStyle r _ _ => [r.startIndex, r.endIndex]
  | .createParagraphBullets r _ => [r.startIndex, r.endIndex]
  | .deleteContentRange r => [r.startIndex, r.endIndex]

/-!
## Document structure (`document-sections.js`)

A retrieved document is its ordered `body.content` list of positioned
structural elements; a paragraph element carries its `paragraphStyle`
(`namedStyleType`, `headingId`) and inline runs.
-/

/-- One entry of `paragraph.elements`; `textRunContent` is
`element.textRun?.content`. -/
structure ParagraphElement where
  textRunContent : Option String
deriving Repr, DecidableEq, Inhabited

/-- The `paragraph` payload of a structural element. -/
structure Paragraph where
  namedStyleType : Option String := none
  headingId : Option String := none
  elements : List ParagraphElement := []
deriving Repr, DecidableEq, Inhabited

/-- A positioned `StructuralElement` of `doc.body.content`; non-paragraph
elements (tables, section breaks) have `paragraph = none`. -/
structure StructuralElement where
  startIndex : Int
  endIndex : Int
  paragraph : Option Paragraph := none
deriving Repr, DecidableEq, Inhabited

/-- A retrieved document, reduced to its `body.content` list. -/
structure Document where
  content : List StructuralElement
deriving Repr, DecidableEq, Inhabited

/-- `extractTextFromParagraph(paragraph)` : join the text-run contents and
strip one trailing newline (the `/\n$/` replace). -/
def extractTextFromParagraph (p : Paragraph) : String :=
  let s := String.join (p.elements.map fun e => e.textRunContent.getD "")
  if s.data.getLast? = some '\n' then s.dropRight 1 else s

/-- A heading collected by `parseDocumentSections`. -/
structure Heading where
  level : Nat
  text : String
  headingId : Option String
  startIndex : Int
  endIndex : Int
deriving Repr, DecidableEq, Inhabited

/-- Decimal digit-string parsing (the semantics of `String.toNat?`,
written over the character list so that it evaluates in the kernel). -/
def decDigitsToNat? (l : List Char) : Option Nat :=
  if l ≠ [] ∧ l.all (fun c => c.isDigit) then
    some (l.foldl (fun n c => n * 10 + (c.toNat - 48)) 0)
  else none

/-- `parseInt(namedStyleType.replace('HEADING_', ''))` on an
API-conformant style name (`HEADING_1` … `HEADING_6`); JS `parseInt`
agrees with decimal digit parsing on these (malformed suffixes, which the
Docs API never produces, would give `NaN` in JS and default to 0 here). -/
def parseHeadingLevel (sty : String) : Nat :=
  (decDigitsToNat? (sty.drop 8).data).getD 0

/-- One iteration of the heading-collection loop of
`parseDocumentSections`: a paragraph element whose `namedStyleType` starts
with `HEADING_` yields a heading record. -/
def headingOf (e : StructuralElement) : Option Heading :=
  match e.paragraph with
  | none => none
  | some p =>
    match p.namedStyleType with
    | none => none
    | some sty =>
      if "HEADING_".data.isPrefixOf sty.data then
        some ⟨parseHeadingLevel sty, extractTextFromParagraph p, p.headingId,
              e.startIndex, e.endIndex⟩
      else none

/-- The heading-collection loop of `parseDocumentSections`: every
paragraph element whose `namedStyleType` starts with `HEADING_`. -/
def collectHeadings (content : List StructuralElement) : List Heading :=
  content.filterMap headingOf

/-- `content[content.length - 1].endIndex` (0 for the empty list, which the
code never reaches: it is only read when at least one heading exists). -/
def docEndIndex (content : List StructuralElement) : Int :=
  (content.getLast?.map (·.endIndex)).getD 0

/-- The scan
`while (endHeadingIdx < headings.length && headings[endHeadingIdx].level > heading.level) endHeadingIdx++`
advances past exactly the leading run of strictly deeper headings, so its
net advance is the length of that run. -/
def deeperRun (lvl : Nat) (hs : List Heading) : Nat :=
  (hs.takeWhile fun h => decide (lvl < h.level)).length

/-- The `sectionEndIndex` computed for heading `i`: when a next heading
exists, scan for the next heading at the same or higher level and use its
start index, falling back to the document end when the scan runs off the
end; the last heading's section always ends at the document end. -/
def sectionEndIndexFor (headings : List Heading)
    (content : List StructuralElement) (i : Nat) : Int :=
  if i + 1 < headings.length then
    let endHeadingIdx := i + 1 + deeperRun (headings[i]!).level (headings.drop (i + 1))
    if endHeadingIdx < headings.length then (headings[endHeadingIdx]!).startIndex
    else docEndIndex content
  else docEndIndex content

/-- The section record pushed by `parseDocumentSections`. -/
structure DocSection where
  level : Nat
  title : String
  headingId : Option String
  headingStartIndex : Int
  headingEndIndex : Int
  contentStartIndex : Int
  contentEndIndex : Int
  sectionStartIndex : Int
  sectionEndIndex : Int
deriving Repr, DecidableEq, Inhabited

/-- `parseDocumentSections(doc)`. -/
def parseDocumentSections (doc : Document) : List DocSection :=
  let headings := collectHeadings doc.content
  (List.range headings.length).map fun i =>
    let h := headings[i]!
    let e := sectionEndIndexFor headings doc.content i
    ⟨h.level, h.text, h.headingId, h.startIndex, h.endIndex,
     h.endIndex, e, h.startIndex, e⟩

/-- `extractSectionContent(doc, section)` : the elements whose start index
lies within the section's content range. -/
def extractSectionContent (doc : Document) (sec : DocSection) :
    List StructuralElement :=
  doc.content.filter fun e =>
    decide (sec.contentStartIndex ≤ e.startIndex) &&
      decide (e.startIndex < sec.contentEndIndex)

/-!
## Outline construction (`buildOutline`)

The JS builds the outline with an explicit stack of mutable nodes: for each
section it pops every stack entry whose level is `>=` the current level,
attaches a fresh node to the new stack top (or to the top-level outline),
and pushes the node.  Children arrays are mutated in place, so a node's
children are complete only once it can never be a parent again.  The
functional rendition below keeps, for each stack entry, its section and its
children collected so far (in reverse); a node is assembled exactly when the
entry is popped (or when the traversal ends), which yields the same tree.
-/

/-- A node of the outline: a section together with its child sections. -/
inductive OutlineNode where
  | mk (sec : DocSection) (children : List OutlineNode)
deriving Repr, Inhabited

/-- A stack entry: a section and its children collected so far, newest
first. -/
abbrev OutlineEntry := DocSection × List OutlineNode

/-- Continue popping entries whose level is `≥ lvl`, carrying the node
assembled from the entry just popped; the carried node is attached to the
next entry down (or to the top-level outline when the stack empties). -/
def popAttach (lvl : Nat) (node : OutlineNode) :
    List OutlineEntry → List OutlineNode → List OutlineEntry × List OutlineNode
  | [], outline => ([], node :: outline)
  | (sec, kids) :: rest, outline =>
    if lvl ≤ sec.level then
      popAttach lvl (.mk sec (node :: kids).reverse) rest outline
    else ((sec, node :: kids) :: rest, outline)

/-- `while (stack.length > 0 && stack[stack.length-1].level >= section.level) stack.pop()`. -/
def popGE (lvl : Nat) :
    List OutlineEntry → List OutlineNode → List OutlineEntry × List OutlineNode
  | [], outline => ([], outline)
  | (sec, kids) :: rest, outline =>
    if lvl ≤ sec.level then popAttach lvl (.mk sec kids.reverse) rest outline
    else ((sec, kids) :: rest, outline)

/-- End of the traversal: every remaining stack entry is assembled and
attached downward; the accumulated top-level outline (kept newest first) is
reversed into document order. -/
def drainAttach (node : OutlineNode) :
    List OutlineEntry → List OutlineNode → List OutlineNode
  | [], outline => (node :: outline).reverse
  | (sec, kids) :: rest, outline =>
    drainAttach (.mk sec (node :: kids).reverse) rest outline

/-- Assemble all remaining stack entries at the end of the traversal. -/
def drainStack : List OutlineEntry → List OutlineNode → List OutlineNode
  | [], outline => outline.reverse
  | (sec, kids) :: rest, outline => drainAttach (.mk sec kids.reverse) rest outline

/-- The per-section step of `buildOutline`. -/
def buildOutlineStep (acc : List OutlineEntry × List OutlineNode)
    (sec : DocSection) : List OutlineEntry × List OutlineNode :=
  let popped := popGE sec.level acc.1 acc.2
  ((sec, []) :: popped.1, popped.2)

/-- `buildOutline(sections)`. -/
def buildOutline (sections : List DocSection) : List OutlineNode :=
  let final := sections.foldl buildOutlineStep ([], [])
  drainStack final.1 final.2

/-- `buildOutline` resumed from an intermediate stack and accumulated
top-level outline (the whole run is `buildOutlineFrom sections [] []`). -/
def buildOutlineFrom (sections : List DocSection) (stack : List OutlineEntry)
    (outline : List OutlineNode) : List OutlineNode :=
  let final := sections.foldl buildOutlineStep (stack, outline)
  drainStack final.1 final.2

/-- Declarative nesting per the spec's description of the stack pass: a
section's children are exactly the maximal run of strictly deeper sections
following it; the first later section at the same or a higher level starts
a sibling (or closes the parent).  `buildOutline` is proved extensionally
equal to this below. -/
def nestSections : List DocSection → List OutlineNode
  | [] => []
  | s :: rest =>
    .mk s (nestSections (rest.takeWhile fun t => decide (s.level < t.level)))
      :: nestSections (rest.dropWhile fun t => decide (s.level < t.level))
termination_by l => l.length
decreasing_by
  · have h := ( List.takeWhile_prefix (l := rest)
      (fun t : DocSection => decide (s.level < t.level))).length_le
    simp only [List.length_cons]
    omega
  · have h := (List.dropWhile_suffix (l := rest)
      (fun t : DocSection => decide (s.level < t.level))).length_le
    simp only [List.length_cons]
    omega

/-!
## Delete requests and search (`document-sections.js`)
-/

/-- `createDeleteSectionContentRequest(section)` : `null` for an empty
content range, otherwise a `deleteContentRange` stopping one short of the
boundary to preserve the trailing paragraph marker. -/
def createDeleteSectionContentRequest (sec : DocSection) : Option Request :=
  if sec.contentStartIndex ≥ sec.contentEndIndex then none
  else some (.deleteContentRange ⟨sec.contentStartIndex, sec.contentEndIndex - 1⟩)

/-- `createDeleteSectionRequest(section)` : delete heading plus content,
again stopping one short of the boundary. -/
def createDeleteSectionRequest (sec : DocSection) : Request :=
  .deleteContentRange ⟨sec.sectionStartIndex, sec.sectionEndIndex - 1⟩

/-- JS `String.prototype.toLowerCase()`, modelled character-wise (on the
ASCII texts of interest this agrees with JS, which lower-cases per UTF-16
unit). -/
def toLowerCase (s : String) : String := String.mk (s.data.map Char.toLower)

/-- A search match (`matches.push({...})`). -/
structure SearchMatch where
  startIndex : Int
  endIndex : Int
  text : String
  context : String
  paragraphIndex : Int
deriving Repr, DecidableEq, Inhabited

/-- JS `text.substring(a, b)` for `a ≤ b`, over a character list. -/
def substring (l : List Char) (a b : Nat) : String :=
  String.mk ((l.drop a).take (b - a))

/-- JS `text.indexOf(pat, i)` : the least position `j ≥ i` at which `pat`
occurs in `text` (`none` for JS's `-1`). -/
def jsIndexOfFrom (text pat : List Char) (i : Nat) : Option Nat :=
  (List.range (text.length + 1)).find? fun j =>
    decide (i ≤ j) && decide ((text.drop j).take pat.length = pat)

/-- The `while ((index = lowerText.indexOf(searchQuery, index)) !== -1)`
loop: report each hit and resume the scan `pat.length` past it.  The fuel
`text.length + 1` is sufficient whenever `pat` is nonempty (every hit
advances the scan position by at least one); on an empty pattern the JS
loop never terminates, so all occurrence theorems below assume a nonempty
query. -/
def searchScan (text pat : List Char) : Nat → Nat → List Nat
  | 0, _ => []
  | fuel + 1, i =>
    match jsIndexOfFrom text pat i with
    | none => []
    | some j => j :: searchScan text pat fuel (j + pat.length)

/-- All (non-overlapping, leftmost-greedy) occurrence positions the search
loop reports. -/
def findOccurrences (text pat : List Char) : List Nat :=
  searchScan text pat (text.length + 1) 0

/-- The per-paragraph body of `searchInDocument`'s loop: lower-case the
paragraph text and the query, collect occurrences, and build a match with
absolute positions and a ±20-character context window clipped to the
paragraph text. -/
def paragraphMatches (e : StructuralElement) (p : Paragraph) (query : String) :
    List SearchMatch :=
  let text := extractTextFromParagraph p
  let t := text.toList
  let occs := findOccurrences (toLowerCase text).toList (toLowerCase query).toList
  occs.map fun idx =>
    { startIndex := e.startIndex + Int.ofNat idx,
      endIndex := e.startIndex + Int.ofNat idx + strLen query,
      text := substring t idx (idx + query.length),
      context := substring t (idx - 20) (min t.length (idx + query.length + 20)),
      paragraphIndex := e.startIndex }

/-- `searchInDocument(doc, query, section)` : scan paragraph elements whose
start index lies inside the bounding section range (the whole document when
`section` is `null`, where the upper bound is `Infinity`). -/
def searchInDocument (doc : Document) (query : String)
    (sec : Option DocSection) : List SearchMatch :=
  doc.content.flatMap fun e =>
    match e.paragraph with
    | none => []
    | some p =>
      let lo : Int := match sec with | none => 0 | some s => s.sectionStartIndex
      let inHi : Bool :=
        match sec with | none => true | some s => decide (e.startIndex < s.sectionEndIndex)
      if decide (lo ≤ e.startIndex) && inHi then paragraphMatches e p query else []

/-!
## Batch rebaser
-/

/-- Modelled from the spec: the Batch Rebaser of §4.6 is implemented in the
CLI driver (`gdoc.js`), which is not among the provided sources.  Per the
spec, it adds a constant `offset` to every index-bearing field of every
operation variant: the `InsertText` location index and the range start and
end of `SetTextStyle` / `SetParagraphStyle` / `SetBullets` / `DeleteRange`. -/
def rebaseRequest (offset : Int) : Request → Request
  | .insertText i t => .insertText (i + offset) t
  | .updateTextStyle r st f =>
      .updateTextStyle ⟨r.startIndex + offset, r.endIndex + offset⟩ st f
  | .updateParagraphStyle r n f =>
      .updateParagraphStyle ⟨r.startIndex + offset, r.endIndex + offset⟩ n f
  | .createParagraphBullets r b =>
      .createParagraphBullets ⟨r.startIndex + offset, r.endIndex + offset⟩ b
  | .deleteContentRange r =>
      .deleteContentRange ⟨r.startIndex + offset, r.endIndex + offset⟩

/-- Modelled from the spec: rebasing a whole compiled script. -/
def rebaseRequests (offset : Int) (rs : List Request) : List Request :=
  rs.map (rebaseRequest offset)

/-!
## Specification-side notions used in theorem statements
-/

/-- The Google Docs retrieval contract: structural elements have nonempty
ranges and tile the document contiguously in order. -/
def WellFormedContent (content : List StructuralElement) : Prop :=
  (∀ e ∈ content, e.startIndex < e.endIndex) ∧
  List.Chain' (fun a b => a.endIndex = b.startIndex) content

/-- Occurrence of `pat` at character position `j` of `text`. -/
def occursAt (text pat : List Char) (j : Nat) : Prop :=
  (text.drop j).take pat.length = pat

/-- The bounding condition of the search loop: the element's start index
lies inside the optional bounding section's range (the whole document,
i.e. `[0, Infinity)`, when no section is given). -/
def inSearchRange (sec : Option DocSection) (e : StructuralElement) : Prop :=
  match sec with
  | none => (0 : Int) ≤ e.startIndex
  | some s => s.sectionStartIndex ≤ e.startIndex ∧ e.startIndex < s.sectionEndIndex

/-!
## Concrete instances used by the theorems below
-/

/-- marked's token tree for the markdown input `"# Title\n\nHello **world**"`:
a depth-1 heading, the blank-line `space` token, and a paragraph whose
inline tokens are a plain text run and a `strong` span. -/
def c1Tokens : List Tok :=
  [.heading 1 "Title" [.text "Title" []],
   .space,
   .paragraph "Hello **world**" [.text "Hello " [], .strong "world" [.text "world" []]]]

/-- A loose unordered list item whose two text blocks carry bold markup in
their raw `text` fields (markdown `"- **ab**\n\n  **c**"`): each block is a
`text` token with nested `strong` children, separated by a `space` token. -/
def c2LooseItemTokens : List Tok :=
  [.list false [[.text "**ab**" [.strong "ab" [.text "ab" []]],
                 .space,
                 .text "**c**" [.strong "c" [.text "c" []]]]]]

/-- A two-token inline span: a `text` token whose raw field is `"**ab**"`
(rendered `"ab"`) with a nested `strong` child, followed by an `em` token. -/
def c3Span : List Tok :=
  [.text "**ab**" [.strong "ab" [.text "ab" []]],
   .em "x" [.text "x" []]]

/-- marked's token tree for the inline markdown `"**bold *and* nested**"`. -/
def c8BoldTok : Tok :=
  .strong "bold *and* nested"
    [.text "bold " [], .em "and" [.text "and" []], .text " nested" []]

/-- A heading paragraph element at `[a, b)` with style `HEADING_<lvl>`. -/
def headingElem (a b : Int) (lvl : Nat) (txt : String) : StructuralElement :=
  { startIndex := a, endIndex := b,
    paragraph := some { namedStyleType := some ("HEADING_" ++ toString lvl),
                        headingId := none,
                        elements := [⟨some (txt ++ "\n")⟩] } }

/-- A body paragraph element at `[a, b)`. -/
def bodyElem (a b : Int) (txt : String) : StructuralElement :=
  { startIndex := a, endIndex := b,
    paragraph := some { namedStyleType := some "NORMAL_TEXT",
                        headingId := none,
                        elements := [⟨some (txt ++ "\n")⟩] } }

/-- Document with headings at levels 1, 2, 2, 1 (plus two body paragraphs). -/
def c6Doc : Document :=
  ⟨[headingElem 1 10 1 "Alpha", headingElem 10 20 2 "Beta", bodyElem 20 30 "body",
    headingElem 30 40 2 "Gamma", headingElem 40 50 1 "Delta", bodyElem 50 60 "tail"]⟩

/-- Document with a level-1 heading followed by a level-2 heading: the two
flat sections overlap. -/
def c5OverlapDoc : Document :=
  ⟨[headingElem 1 10 1 "A", headingElem 10 20 2 "B", bodyElem 20 30 "x"]⟩

/-- Single-paragraph document with text `"abc ABC abc"`. -/
def c7Doc : Document :=
  ⟨[{ startIndex := 1, endIndex := 13,
      paragraph := some { namedStyleType := some "NORMAL_TEXT",
                          headingId := none,
                          elements := [⟨some "abc ABC abc\n"⟩] } }]⟩

/-- A section with a nonempty content range `[5, 9)`. -/
def c10Sec : DocSection := ⟨2, "T", none, 1, 5, 5, 9, 1, 9⟩

end Gdoc

namespace Gdoc

/-!
## General lemmas: operation compiler
-/

theorem insertedLen_append (a b : List Request) :
    insertedLen (a ++ b) = insertedLen a + insertedLen b := by
  induction a with
  | nil => simp [insertedLen]
  | cons r rs ih => cases r <;> simp [insertedLen, ih, add_assoc]

theorem insertedLen_applyInlineFormatting (toks : List Tok) (s off : Int) :
    insertedLen (applyInlineFormatting toks s off) = 0 := by
  induction toks, s, off using applyInlineFormatting.induct <;>
    simp_all [applyInlineFormatting, insertedLen, insertedLen_append]

/-- A converter step that appends to the script and advances the cursor by
exactly the length of the text its new insert requests carry. -/
def AppendsInserted {α : Type} (f : ConvState → α → ConvState) : Prop :=
  ∀ st a, ∃ new, (f st a).requests = st.requests ++ new ∧
    (f st a).currentIndex = st.currentIndex + insertedLen new

theorem appendsInserted_foldl {α : Type} {f : ConvState → α → ConvState}
    (hf : AppendsInserted f) (l : List α) (st : ConvState) :
    ∃ new, (l.foldl f st).requests = st.requests ++ new ∧
      (l.foldl f st).currentIndex = st.currentIndex + insertedLen new := by
  induction l generalizing st with
  | nil => exact ⟨[], by simp, by simp [insertedLen]⟩
  | cons a l ih =>
    obtain ⟨n1, h1, h2⟩ := hf st a
    obtain ⟨n2, h3, h4⟩ := ih (f st a)
    refine ⟨n1 ++ n2, ?_, ?_⟩
    · simp [List.foldl_cons, h3, h1]
    · simp [List.foldl_cons, h4, h2, insertedLen_append]
      ring

theorem appendsInserted_addListItem (ordered : Bool) :
    AppendsInserted (addListItem ordered) := by
  intro st a
  refine ⟨_, rfl, ?_⟩
  simp [addListItem, insertedLen, insertedLen_append, insertedLen_applyInlineFormatting]

theorem appendsInserted_processToken : AppendsInserted processToken := by
  intro st t
  cases t with
  | heading d s toks =>
    refine ⟨_, rfl, ?_⟩
    simp [processToken, addHeading, insertedLen, insertedLen_append,
      insertedLen_applyInlineFormatting]
  | paragraph s toks =>
    refine ⟨_, rfl, ?_⟩
    simp [processToken, addParagraph, insertedLen, insertedLen_append,
      insertedLen_applyInlineFormatting]
  | list ordered items =>
    have h := appendsInserted_foldl (appendsInserted_addListItem ordered) items st
    simpa [processToken, addList] using h
  | code s =>
    refine ⟨_, rfl, ?_⟩
    simp [addCodeBlock, processToken, insertedLen]
  | table header rows =>
    refine ⟨_, rfl, ?_⟩
    simp [addTable, processToken, insertedLen]
  | space => exact ⟨[], by simp [processToken], by simp [processToken, insertedLen]⟩
  | strong s toks => exact ⟨[], by simp [processToken], by simp [processToken, insertedLen]⟩
  | em s toks => exact ⟨[], by simp [processToken], by simp [processToken, insertedLen]⟩
  | link h s toks => exact ⟨[], by simp [processToken], by simp [processToken, insertedLen]⟩
  | codespan s => exact ⟨[], by simp [processToken], by simp [processToken, insertedLen]⟩
  | text s toks => exact ⟨[], by simp [processToken], by simp [processToken, insertedLen]⟩

/-- The only state field `convert` threads through its fold that feeds back
into request emission is the cursor, and every cursor advance is paired
with an insert of the same length, so the final cursor is 1 plus the total
inserted length. -/
theorem convert_currentIndex_eq (tokens : List Tok) :
    (convert tokens).currentIndex = 1 + insertedLen (convert tokens).requests := by
  obtain ⟨new, h1, h2⟩ := appendsInserted_foldl appendsInserted_processToken tokens
    ⟨[], [], 1, []⟩
  simp only [convert, h1, h2]
  simp

/-- Evaluation of `convert` on the loose-list token tree. -/
theorem c2_check_requests :
    (convert c2LooseItemTokens).requests =
      [.insertText 1 "ab c\n",
       .createParagraphBullets ⟨1, 5⟩ "BULLET_DISC_CIRCLE_SQUARE",
       .updateTextStyle ⟨1, 3⟩ boldStyle "bold",
       .updateTextStyle ⟨7, 8⟩ boldStyle "bold"] ∧
    (convert c2LooseItemTokens).currentIndex = 6 := by
  constructor
  · simp [convert, c2LooseItemTokens, processToken, addList, addListItem, extractPlainText,
      applyInlineFormatting, strLen]
    decide
  · simp [convert, c2LooseItemTokens, processToken, addList, addListItem, extractPlainText,
      applyInlineFormatting, strLen]
    decide

end Gdoc
namespace Gdoc

theorem deeperRun_le (lvl : Nat) (l : List Heading) : deeperRun lvl l ≤ l.length :=
  ( List.takeWhile_prefix _).length_le

theorem deeperRun_mem (lvl : Nat) (l : List Heading) (m : Nat)
    (hm : m < deeperRun lvl l) :
    lvl < (l.get ⟨m, lt_of_lt_of_le hm (deeperRun_le lvl l)⟩).level := by
  have hpre := List.takeWhile_prefix (l := l) (p := fun h => decide (lvl < h.level))
  have hm' : m < (l.takeWhile fun h => decide (lvl < h.level)).length := hm
  have heq := hpre.getElem hm'
  have hmem := List.getElem_mem hm'
  have hp := List.mem_takeWhile_imp hmem
  rw [heq] at hp
  rw [List.get_eq_getElem]
  simpa using hp

theorem deeperRun_next (lvl : Nat) (l : List Heading)
    (h : deeperRun lvl l < l.length) :
    ¬ lvl < (l.get ⟨deeperRun lvl l, h⟩).level := by
  rw [List.get_eq_getElem]
  have hsplit := List.takeWhile_append_dropWhile (p := fun h => decide (lvl < h.level)) (l := l)
  have htw : deeperRun lvl l = (l.takeWhile fun h => decide (lvl < h.level)).length := rfl
  have hdlen : 0 < (l.dropWhile fun h => decide (lvl < h.level)).length := by
    have := congrArg List.length hsplit
    simp only [List.length_append] at this
    omega
  have hnot := List.dropWhile_get_zero_not (fun h => decide (lvl < h.level)) l hdlen
  have hb : deeperRun lvl l <
      ((l.takeWhile fun h => decide (lvl < h.level)) ++
        (l.dropWhile fun h => decide (lvl < h.level))).length := by
    rw [hsplit]; exact h
  have hidx : l.get ⟨deeperRun lvl l, h⟩ =
      (l.dropWhile fun h => decide (lvl < h.level)).get ⟨0, hdlen⟩ := by
    rw [List.get_eq_getElem]
    have h2 := List.getElem_of_eq hsplit.symm h
    rw [h2, List.getElem_append]
    rw [dif_neg (by omega)]
    congr 1
    omega
  rw [List.get_eq_getElem] at hidx
  rw [hidx]
  simpa using hnot

theorem parse_length (doc : Document) :
    (parseDocumentSections doc).length = (collectHeadings doc.content).length := by
  simp [parseDocumentSections]

theorem parse_get (doc : Document) (i : Nat)
    (hi : i < (collectHeadings doc.content).length) :
    (parseDocumentSections doc)[i]! =
      ⟨((collectHeadings doc.content)[i]!).level,
       ((collectHeadings doc.content)[i]!).text,
       ((collectHeadings doc.content)[i]!).headingId,
       ((collectHeadings doc.content)[i]!).startIndex,
       ((collectHeadings doc.content)[i]!).endIndex,
       ((collectHeadings doc.content)[i]!).endIndex,
       sectionEndIndexFor (collectHeadings doc.content) doc.content i,
       ((collectHeadings doc.content)[i]!).startIndex,
       sectionEndIndexFor (collectHeadings doc.content) doc.content i⟩ := by
  have h1 : i < (parseDocumentSections doc).length := by rw [parse_length]; exact hi
  rw [getElem!_pos (parseDocumentSections doc) i h1]
  simp [parseDocumentSections, getElem!_pos (collectHeadings doc.content) i hi]

end Gdoc

namespace Gdoc

theorem sectionEnd_cases (hs : List Heading) (content : List StructuralElement)
    (i : Nat) (hi : i < hs.length) :
    (∃ j, i < j ∧ j < hs.length ∧ (hs[j]!).level ≤ (hs[i]!).level ∧
        (∀ j2, i < j2 → j2 < j → (hs[i]!).level < (hs[j2]!).level) ∧
        sectionEndIndexFor hs content i = (hs[j]!).startIndex) ∨
    ((∀ j, i < j → j < hs.length → (hs[i]!).level < (hs[j]!).level) ∧
      sectionEndIndexFor hs content i = docEndIndex content) := by
  by_cases hnext : i + 1 < hs.length
  · have hnle : deeperRun ((hs[i]!).level) (hs.drop (i + 1)) ≤ hs.length - (i + 1) := by
      have := deeperRun_le ((hs[i]!).level) (hs.drop (i + 1))
      simpa [List.length_drop] using this
    have hdeep : ∀ j, i < j → j < i + 1 + deeperRun ((hs[i]!).level) (hs.drop (i + 1)) →
        j < hs.length → (hs[i]!).level < (hs[j]!).level := by
      intro j hj1 hj2 hj3
      have hm : j - (i + 1) < deeperRun ((hs[i]!).level) (hs.drop (i + 1)) := by omega
      have hlt := deeperRun_mem ((hs[i]!).level) (hs.drop (i + 1)) (j - (i + 1)) hm
      have hb : j - (i + 1) < (hs.drop (i + 1)).length := by
        simp [List.length_drop]; omega
      have heq : (hs.drop (i + 1)).get ⟨j - (i + 1), hb⟩ = hs.get ⟨j, hj3⟩ := by
        simp only [List.get_eq_getElem]
        rw [List.getElem_drop]
        congr 1
        omega
      rw [getElem!_pos hs j hj3]
      rw [heq] at hlt
      rw [List.get_eq_getElem] at hlt
      exact hlt
    by_cases he : i + 1 + deeperRun ((hs[i]!).level) (hs.drop (i + 1)) < hs.length
    · left
      refine ⟨i + 1 + deeperRun ((hs[i]!).level) (hs.drop (i + 1)), by omega, he, ?_, ?_, ?_⟩
      · have hb : deeperRun ((hs[i]!).level) (hs.drop (i + 1)) < (hs.drop (i + 1)).length := by
          simp [List.length_drop]; omega
        have hnot := deeperRun_next ((hs[i]!).level) (hs.drop (i + 1)) hb
        have heq : (hs.drop (i + 1)).get ⟨deeperRun ((hs[i]!).level) (hs.drop (i + 1)), hb⟩ =
            hs.get ⟨i + 1 + deeperRun ((hs[i]!).level) (hs.drop (i + 1)), he⟩ := by
          simp only [List.get_eq_getElem]
          rw [List.getElem_drop]
        rw [heq] at hnot
        rw [getElem!_pos hs _ he]
        simp only [List.get_eq_getElem, Fin.val_mk] at hnot
        omega
      · intro j2 hj1 hj2
        exact hdeep j2 hj1 hj2 (by omega)
      · simp only [sectionEndIndexFor, if_pos hnext]
        rw [if_pos he]
    · right
      constructor
      · intro j hj1 hj2
        exact hdeep j hj1 (by omega) hj2
      · simp only [sectionEndIndexFor, if_pos hnext]
        rw [if_neg he]
  · right
    constructor
    · intro j hj1 hj2
      exact ((by omega : False)).elim
    · simp only [sectionEndIndexFor, if_neg hnext]

end Gdoc


namespace Gdoc

theorem wf_tail {a : StructuralElement} {l : List StructuralElement}
    (h : WellFormedContent (a :: l)) : WellFormedContent l :=
  ⟨fun e he => h.1 e (by simp [he]), h.2.tail⟩

theorem wf_start_chain {content : List StructuralElement}
    (h : WellFormedContent content) :
    List.Chain' (fun a b => a.startIndex < b.startIndex) content := by
  induction content with
  | nil => simp
  | cons a l ih =>
    cases l with
    | nil => simp
    | cons b m =>
      rw [List.chain'_cons]
      have hab : a.endIndex = b.startIndex := (List.chain'_cons.mp h.2).1
      refine ⟨?_, ih (wf_tail h)⟩
      have := h.1 a (by simp)
      omega

theorem wf_start_pairwise {content : List StructuralElement}
    (h : WellFormedContent content) :
    List.Pairwise (fun a b => a.startIndex < b.startIndex) content := by
  haveI : IsTrans StructuralElement (fun a b => a.startIndex < b.startIndex) :=
    ⟨fun a b c h1 h2 => lt_trans h1 h2⟩
  exact List.chain'_iff_pairwise.mp (wf_start_chain h)

theorem wf_end_le_docEnd {content : List StructuralElement}
    (h : WellFormedContent content) :
    ∀ e ∈ content, e.endIndex ≤ docEndIndex content := by
  induction content with
  | nil => simp
  | cons a l ih =>
    intro e he
    cases l with
    | nil =>
      simp at he
      simp [he, docEndIndex]
    | cons b m =>
      have hd : docEndIndex (a :: b :: m) = docEndIndex (b :: m) := by
        simp [docEndIndex]
      have hwb : WellFormedContent (b :: m) := wf_tail h
      rcases List.mem_cons.mp he with he | he
      · subst he
        have hab : e.endIndex = b.startIndex := (List.chain'_cons.mp h.2).1
        have hb : b.endIndex ≤ docEndIndex (b :: m) := ih hwb b (by simp)
        have hbpos : b.startIndex < b.endIndex := hwb.1 b (by simp)
        rw [hd]
        omega
      · rw [hd]
        exact ih hwb e he

theorem wf_succ {content : List StructuralElement}
    (h : WellFormedContent content) :
    ∀ e ∈ content, e.endIndex = docEndIndex content ∨
      ∃ f ∈ content, f.startIndex = e.endIndex := by
  induction content with
  | nil => simp
  | cons a l ih =>
    intro e he
    cases l with
    | nil =>
      left
      simp at he
      simp [he, docEndIndex]
    | cons b m =>
      have hd : docEndIndex (a :: b :: m) = docEndIndex (b :: m) := by
        simp [docEndIndex]
      rcases List.mem_cons.mp he with he | he
      · subst he
        right
        exact ⟨b, by simp, ((List.chain'_cons.mp h.2).1).symm⟩
      · rcases ih (wf_tail h) e he with h1 | ⟨f, hf, hfs⟩
        · left
          rw [hd]
          exact h1
        · right
          exact ⟨f, by simp [hf], hfs⟩

theorem headingOf_fields {e : StructuralElement} {h : Heading}
    (hfe : headingOf e = some h) :
    h.startIndex = e.startIndex ∧ h.endIndex = e.endIndex := by
  cases hp : e.paragraph
  · simp [headingOf, hp] at hfe
  · rename_i p
    cases hs : p.namedStyleType
    · simp [headingOf, hp, hs] at hfe
    · rename_i sty
      by_cases hpre : ("HEADING_".data.isPrefixOf sty.data) = true
      · simp only [headingOf, hp, hs, if_pos hpre, Option.some.injEq] at hfe
        rw [← hfe]
        exact ⟨rfl, rfl⟩
      · simp [headingOf, hp, hs, hpre] at hfe

theorem pairwise_filterMap_trans {α β : Type} {f : α → Option β}
    {R : α → α → Prop} {S : β → β → Prop}
    (hf : ∀ a b x y, R a b → f a = some x → f b = some y → S x y) :
    ∀ {l : List α}, List.Pairwise R l → List.Pairwise S (l.filterMap f) := by
  intro l hl
  induction hl with
  | nil => simp
  | @cons a l' ha hl ih =>
    rw [List.filterMap_cons]
    cases hfa : f a with
    | none => exact ih
    | some x =>
      refine List.Pairwise.cons ?_ ih
      intro y hy
      rw [List.mem_filterMap] at hy
      obtain ⟨b, hb, hfb⟩ := hy
      exact hf a b x y (ha b hb) hfa hfb

theorem pairwise_headings {content : List StructuralElement}
    (h : WellFormedContent content) :
    List.Pairwise (fun a b : Heading => a.startIndex < b.startIndex)
      (collectHeadings content) := by
  refine pairwise_filterMap_trans ?_ (wf_start_pairwise h)
  intro a b x y hR hfa hfb
  obtain ⟨hx, _⟩ := headingOf_fields hfa
  obtain ⟨hy, _⟩ := headingOf_fields hfb
  omega

theorem heading_mem_elem {content : List StructuralElement} {h : Heading}
    (hm : h ∈ collectHeadings content) :
    ∃ e ∈ content, e.startIndex = h.startIndex ∧ e.endIndex = h.endIndex := by
  rw [collectHeadings, List.mem_filterMap] at hm
  obtain ⟨e, he, hfe⟩ := hm
  obtain ⟨h1, h2⟩ := headingOf_fields hfe
  exact ⟨e, he, h1.symm, h2.symm⟩

theorem sectionEnd_le_docEnd {doc : Document}
    (hwf : WellFormedContent doc.content) {i : Nat}
    (hi : i < (collectHeadings doc.content).length) :
    sectionEndIndexFor (collectHeadings doc.content) doc.content i ≤
      docEndIndex doc.content := by
  rcases sectionEnd_cases (collectHeadings doc.content) doc.content i hi with
    ⟨j, _, hj, _, _, heq⟩ | ⟨_, heq⟩
  · rw [heq]
    have hmem : (collectHeadings doc.content)[j]! ∈ collectHeadings doc.content := by
      rw [getElem!_pos (collectHeadings doc.content) j hj]
      exact List.getElem_mem hj
    obtain ⟨e, he, hes, hee⟩ := heading_mem_elem hmem
    have h1 := hwf.1 e he
    have h2 := wf_end_le_docEnd hwf e he
    omega
  · rw [heq]

end Gdoc

namespace Gdoc

theorem headings_start_lt {doc : Document} (hwf : WellFormedContent doc.content)
    {i j : Nat} (hij : i < j) (hj : j < (collectHeadings doc.content).length) :
    ((collectHeadings doc.content)[i]!).startIndex <
      ((collectHeadings doc.content)[j]!).startIndex := by
  have hi : i < (collectHeadings doc.content).length := lt_trans hij hj
  rw [getElem!_pos (collectHeadings doc.content) i hi,
    getElem!_pos (collectHeadings doc.content) j hj]
  exact (List.pairwise_iff_getElem.mp (pairwise_headings hwf)) i j hi hj hij

theorem sections_pairwise_start {doc : Document}
    (hwf : WellFormedContent doc.content) :
    List.Pairwise (fun s1 s2 : DocSection => s1.sectionStartIndex < s2.sectionStartIndex)
      (parseDocumentSections doc) := by
  rw [List.pairwise_iff_getElem]
  intro i j hi hj hij
  have hi' : i < (collectHeadings doc.content).length := by rwa [parse_length] at hi
  have hj' : j < (collectHeadings doc.content).length := by rwa [parse_length] at hj
  have ei : (parseDocumentSections doc)[i] = (parseDocumentSections doc)[i]! :=
    (getElem!_pos (parseDocumentSections doc) i hi).symm
  have ej : (parseDocumentSections doc)[j] = (parseDocumentSections doc)[j]! :=
    (getElem!_pos (parseDocumentSections doc) j hj).symm
  rw [ei, ej, parse_get doc i hi', parse_get doc j hj']
  exact headings_start_lt hwf hij hj'

theorem sections_cover {doc : Document} (_hwf : WellFormedContent doc.content)
    (hne : collectHeadings doc.content ≠ [])
    {x : Int} (hx0 : ((collectHeadings doc.content)[0]!).startIndex ≤ x)
    (hxe : x < docEndIndex doc.content) :
    ∃ s ∈ parseDocumentSections doc,
      s.sectionStartIndex ≤ x ∧ x < s.sectionEndIndex := by
  classical
  have hlen : 0 < (collectHeadings doc.content).length := List.length_pos.mpr hne
  set P : Nat → Prop := fun k => ((collectHeadings doc.content)[k]!).startIndex ≤ x with hP
  have hP0 : P 0 := hx0
  set i := Nat.findGreatest P ((collectHeadings doc.content).length - 1) with hidef
  have hPi : P i := Nat.findGreatest_spec (Nat.zero_le _) hP0
  have hile : i ≤ (collectHeadings doc.content).length - 1 := Nat.findGreatest_le _
  have hilt : i < (collectHeadings doc.content).length := by omega
  have hgt : ∀ k, i < k → k < (collectHeadings doc.content).length →
      x < ((collectHeadings doc.content)[k]!).startIndex := by
    intro k hk1 hk2
    have hnp : ¬ P k := Nat.findGreatest_is_greatest hk1 (by omega)
    rw [hP] at hnp
    omega
  have hilen : i < (parseDocumentSections doc).length := by
    rw [parse_length]
    exact hilt
  refine ⟨(parseDocumentSections doc)[i]!, ?_, ?_, ?_⟩
  · rw [getElem!_pos (parseDocumentSections doc) i hilen]
    exact List.getElem_mem hilen
  · rw [parse_get doc i hilt]
    exact hPi
  · rw [parse_get doc i hilt]
    rcases sectionEnd_cases (collectHeadings doc.content) doc.content i hilt with
      ⟨j, hj1, hj2, _, _, heq⟩ | ⟨_, heq⟩
    · show x < sectionEndIndexFor (collectHeadings doc.content) doc.content i
      rw [heq]
      exact hgt j hj1 hj2
    · show x < sectionEndIndexFor (collectHeadings doc.content) doc.content i
      rw [heq]
      exact hxe

theorem content_empty_iff {doc : Document} (hwf : WellFormedContent doc.content) :
    ∀ s ∈ parseDocumentSections doc,
      (s.contentEndIndex ≤ s.contentStartIndex ↔ extractSectionContent doc s = []) := by
  intro s hsmem
  obtain ⟨i, hilen, hgi⟩ := List.mem_iff_getElem.mp hsmem
  have hilt : i < (collectHeadings doc.content).length := by rwa [parse_length] at hilen
  have hs_eq : s = (parseDocumentSections doc)[i]! := by
    rw [getElem!_pos (parseDocumentSections doc) i hilen]
    exact hgi.symm
  rw [hs_eq, parse_get doc i hilt]
  have hmem : (collectHeadings doc.content)[i]! ∈ collectHeadings doc.content := by
    rw [getElem!_pos (collectHeadings doc.content) i hilt]
    exact List.getElem_mem hilt
  obtain ⟨e, he, hes, hee⟩ := heading_mem_elem hmem
  constructor
  · intro hle
    rw [extractSectionContent, List.filter_eq_nil_iff]
    intro f hf
    simp only [Bool.and_eq_true, decide_eq_true_eq, not_and]
    intro h1 h2
    have hle' : sectionEndIndexFor (collectHeadings doc.content) doc.content i ≤
        ((collectHeadings doc.content)[i]!).endIndex := hle
    omega
  · intro hnil
    by_contra hlt
    push_neg at hlt
    have hlt' : ((collectHeadings doc.content)[i]!).endIndex <
        sectionEndIndexFor (collectHeadings doc.content) doc.content i := hlt
    rcases wf_succ hwf e he with hde | ⟨f, hf, hfs⟩
    · have h2 := sectionEnd_le_docEnd hwf hilt
      omega
    · have hfmem : f ∈ extractSectionContent doc
          ((parseDocumentSections doc)[i]!) := by
        rw [parse_get doc i hilt]
        rw [extractSectionContent, List.mem_filter]
        refine ⟨hf, ?_⟩
        simp only [Bool.and_eq_true, decide_eq_true_eq]
        constructor
        · show ((collectHeadings doc.content)[i]!).endIndex ≤ f.startIndex
          omega
        · show f.startIndex < sectionEndIndexFor (collectHeadings doc.content) doc.content i
          omega
      rw [parse_get doc i hilt] at hfmem
      rw [hnil] at hfmem
      exact absurd hfmem (List.not_mem_nil f)

end Gdoc

namespace Gdoc

theorem buildOutline_eq_from (ss : List DocSection) :
    buildOutline ss = buildOutlineFrom ss [] [] := rfl

theorem popAttach_outline (lvl : Nat) :
    ∀ (stack : List OutlineEntry) (node : OutlineNode) (o : List OutlineNode),
      popAttach lvl node stack o =
        ((popAttach lvl node stack []).1, (popAttach lvl node stack []).2 ++ o) := by
  intro stack
  induction stack with
  | nil => intro node o; simp [popAttach]
  | cons e rest ih =>
    intro node o
    obtain ⟨sec, kids⟩ := e
    by_cases h : lvl ≤ sec.level
    · simp only [popAttach, if_pos h]
      exact ih _ o
    · simp [popAttach, if_neg h]

theorem popGE_outline (lvl : Nat) (stack : List OutlineEntry) (o : List OutlineNode) :
    popGE lvl stack o = ((popGE lvl stack []).1, (popGE lvl stack []).2 ++ o) := by
  cases stack with
  | nil => simp [popGE]
  | cons e rest =>
    obtain ⟨sec, kids⟩ := e
    by_cases h : lvl ≤ sec.level
    · simp only [popGE, if_pos h]
      exact popAttach_outline lvl rest _ o
    · simp [popGE, if_neg h]

theorem drainAttach_outline :
    ∀ (stack : List OutlineEntry) (node : OutlineNode) (o : List OutlineNode),
      drainAttach node stack o = o.reverse ++ drainAttach node stack [] := by
  intro stack
  induction stack with
  | nil => intro node o; simp [drainAttach]
  | cons e rest ih =>
    intro node o
    obtain ⟨sec, kids⟩ := e
    simp only [drainAttach]
    exact ih _ o

theorem drainStack_outline (stack : List OutlineEntry) (o : List OutlineNode) :
    drainStack stack o = o.reverse ++ drainStack stack [] := by
  cases stack with
  | nil => simp [drainStack]
  | cons e rest =>
    obtain ⟨sec, kids⟩ := e
    simp only [drainStack]
    exact drainAttach_outline rest _ o

theorem buildOutlineFrom_outline :
    ∀ (ss : List DocSection) (stack : List OutlineEntry) (o : List OutlineNode),
      buildOutlineFrom ss stack o = o.reverse ++ buildOutlineFrom ss stack [] := by
  intro ss
  induction ss with
  | nil =>
    intro stack o
    simp only [buildOutlineFrom, List.foldl_nil]
    exact drainStack_outline stack o
  | cons u rest ih =>
    intro stack o
    simp only [buildOutlineFrom, List.foldl_cons, buildOutlineStep]
    rw [popGE_outline]
    have h1 := ih ((u, []) :: (popGE u.level stack []).1) ((popGE u.level stack []).2 ++ o)
    have h2 := ih ((u, []) :: (popGE u.level stack []).1) ((popGE u.level stack []).2)
    simp only [buildOutlineFrom] at h1 h2
    rw [h1, h2]
    simp

end Gdoc

namespace Gdoc

theorem popGE_merge (lvl : Nat) (t : DocSection) (k1 : List OutlineNode)
    (s : DocSection) (kids : List OutlineNode) (stack : List OutlineEntry)
    (o : List OutlineNode) (hlvl : lvl ≤ t.level) :
    popGE lvl ((t, k1) :: (s, kids) :: stack) o =
      popGE lvl ((s, OutlineNode.mk t k1.reverse :: kids) :: stack) o := by
  by_cases h : lvl ≤ s.level
  · simp only [popGE, if_pos hlvl, if_pos h, popAttach]
  · simp only [popGE, if_pos hlvl, if_neg h, popAttach]

theorem drainStack_merge (t : DocSection) (k1 : List OutlineNode)
    (s : DocSection) (kids : List OutlineNode) (stack : List OutlineEntry)
    (o : List OutlineNode) :
    drainStack ((t, k1) :: (s, kids) :: stack) o =
      drainStack ((s, OutlineNode.mk t k1.reverse :: kids) :: stack) o := by
  simp only [drainStack, drainAttach]

theorem buildOutlineFrom_merge (fs : List DocSection) (t : DocSection)
    (k1 : List OutlineNode) (s : DocSection) (kids : List OutlineNode)
    (stack : List OutlineEntry) (o : List OutlineNode)
    (hfs : fs = [] ∨ ∃ u rest, fs = u :: rest ∧ u.level ≤ t.level) :
    buildOutlineFrom fs ((t, k1) :: (s, kids) :: stack) o =
      buildOutlineFrom fs ((s, OutlineNode.mk t k1.reverse :: kids) :: stack) o := by
  rcases hfs with hfs | ⟨u, rest, hfs, hu⟩
  · subst hfs
    simp only [buildOutlineFrom, List.foldl_nil]
    exact drainStack_merge t k1 s kids stack o
  · subst hfs
    simp only [buildOutlineFrom, List.foldl_cons, buildOutlineStep]
    rw [popGE_merge u.level t k1 s kids stack o hu]

end Gdoc

namespace Gdoc

theorem dropWhile_head_level {t : DocSection} {rest' : List DocSection}
    {u : DocSection} {rr : List DocSection}
    (h : rest'.dropWhile (fun v => decide (t.level < v.level)) = u :: rr) :
    u.level ≤ t.level := by
  have h0 : 0 < (rest'.dropWhile (fun v => decide (t.level < v.level))).length := by
    rw [h]
    simp
  have hnot := List.dropWhile_get_zero_not (fun v => decide (t.level < v.level)) rest' h0
  have hget : (rest'.dropWhile (fun v => decide (t.level < v.level))).get ⟨0, h0⟩ = u := by
    simp [h]
  rw [hget] at hnot
  simpa using hnot

theorem nest_segment :
    ∀ (n : Nat) (inner : List DocSection), inner.length ≤ n →
    ∀ (after : List DocSection) (s : DocSection) (kids : List OutlineNode)
      (stack : List OutlineEntry) (o : List OutlineNode),
    (∀ t ∈ inner, s.level < t.level) →
    (after = [] ∨ ∃ u rest, after = u :: rest ∧ u.level ≤ s.level) →
    buildOutlineFrom (inner ++ after) ((s, kids) :: stack) o =
      buildOutlineFrom after ((s, (nestSections inner).reverse ++ kids) :: stack) o := by
  intro n
  induction n with
  | zero =>
    intro inner hlen after s kids stack o hinner hafter
    have hnil : inner = [] := List.length_eq_zero.mp (Nat.le_zero.mp hlen)
    subst hnil
    simp [nestSections]
  | succ n ih =>
    intro inner hlen after s kids stack o hinner hafter
    cases inner with
    | nil => simp [nestSections]
    | cons t rest' =>
      have hts : s.level < t.level := hinner t (by simp)
      have hstep : buildOutlineFrom ((t :: rest') ++ after) ((s, kids) :: stack) o =
          buildOutlineFrom (rest' ++ after) ((t, []) :: (s, kids) :: stack) o := by
        simp only [List.cons_append, buildOutlineFrom, List.foldl_cons, buildOutlineStep]
        have hpop : popGE t.level ((s, kids) :: stack) o = ((s, kids) :: stack, o) := by
          simp [popGE, if_neg (by omega : ¬ t.level ≤ s.level)]
        rw [hpop]
      have hsplit : rest' = rest'.takeWhile (fun u => decide (t.level < u.level)) ++
          rest'.dropWhile (fun u => decide (t.level < u.level)) :=
        (List.takeWhile_append_dropWhile _ _).symm
      have hlen2 : (rest'.takeWhile (fun u => decide (t.level < u.level))).length ≤ n := by
        have h1 := ( List.takeWhile_prefix (l := rest')
          (fun u => decide (t.level < u.level))).length_le
        simp only [List.length_cons] at hlen
        omega
      have hlen3 : (rest'.dropWhile (fun u => decide (t.level < u.level))).length ≤ n := by
        have h1 := (List.dropWhile_suffix (l := rest')
          (fun u => decide (t.level < u.level))).length_le
        simp only [List.length_cons] at hlen
        omega
      have hin2 : ∀ u ∈ rest'.takeWhile (fun u => decide (t.level < u.level)),
          t.level < u.level := by
        intro u hu
        simpa using List.mem_takeWhile_imp hu
      have hcond2 : rest'.dropWhile (fun u => decide (t.level < u.level)) ++ after = [] ∨
          ∃ u rr, rest'.dropWhile (fun u => decide (t.level < u.level)) ++ after = u :: rr ∧
            u.level ≤ t.level := by
        cases ha2 : rest'.dropWhile (fun u => decide (t.level < u.level)) with
        | nil =>
          simp only [List.nil_append]
          rcases hafter with h | ⟨u, rr, h, hu⟩
          · left
            exact h
          · right
            exact ⟨u, rr, h, by omega⟩
        | cons u rr =>
          right
          exact ⟨u, rr ++ after, by simp, dropWhile_head_level ha2⟩
      calc buildOutlineFrom ((t :: rest') ++ after) ((s, kids) :: stack) o
          = buildOutlineFrom (rest' ++ after) ((t, []) :: (s, kids) :: stack) o := hstep
        _ = buildOutlineFrom ((rest'.takeWhile (fun u => decide (t.level < u.level)) ++
              (rest'.dropWhile (fun u => decide (t.level < u.level)) ++ after)))
              ((t, []) :: (s, kids) :: stack) o := by
            conv_lhs => rw [hsplit]
            rw [List.append_assoc]
        _ = buildOutlineFrom (rest'.dropWhile (fun u => decide (t.level < u.level)) ++ after)
              ((t, (nestSections (rest'.takeWhile (fun u => decide (t.level < u.level)))).reverse
                ++ []) :: (s, kids) :: stack) o :=
            ih _ hlen2 _ t [] _ o hin2 hcond2
        _ = buildOutlineFrom (rest'.dropWhile (fun u => decide (t.level < u.level)) ++ after)
              ((s, OutlineNode.mk t
                  ((nestSections (rest'.takeWhile (fun u => decide (t.level < u.level)))).reverse
                    ++ []).reverse :: kids) :: stack) o :=
            buildOutlineFrom_merge _ t _ s kids stack o hcond2
        _ = buildOutlineFrom (rest'.dropWhile (fun u => decide (t.level < u.level)) ++ after)
              ((s, OutlineNode.mk t
                  (nestSections (rest'.takeWhile (fun u => decide (t.level < u.level))))
                  :: kids) :: stack) o := by
            simp
        _ = buildOutlineFrom after ((s,
              (nestSections (rest'.dropWhile (fun u => decide (t.level < u.level)))).reverse ++
                (OutlineNode.mk t
                  (nestSections (rest'.takeWhile (fun u => decide (t.level < u.level))))
                  :: kids)) :: stack) o := by
            refine ih _ hlen3 _ s _ stack o ?_ hafter
            intro u hu
            refine hinner u (List.mem_cons_of_mem t ?_)
            rw [hsplit]
            exact List.mem_append_right _ hu
        _ = buildOutlineFrom after ((s, (nestSections (t :: rest')).reverse ++ kids) :: stack) o := by
            conv_rhs => rw [nestSections]
            simp

end Gdoc

namespace Gdoc

theorem buildOutline_eq_nest_aux :
    ∀ (n : Nat) (ss : List DocSection), ss.length ≤ n →
      buildOutline ss = nestSections ss := by
  intro n
  induction n with
  | zero =>
    intro ss h
    have hnil : ss = [] := List.length_eq_zero.mp (Nat.le_zero.mp h)
    subst hnil
    simp [nestSections, buildOutline, drainStack]
  | succ n ih =>
    intro ss hlen
    cases ss with
    | nil => simp [nestSections, buildOutline, drainStack]
    | cons s rest =>
      have hstep : buildOutline (s :: rest) = buildOutlineFrom rest [(s, [])] [] := by
        simp only [buildOutline, buildOutlineFrom, List.foldl_cons, buildOutlineStep]
        have hpop : popGE s.level [] ([] : List OutlineNode) = ([], []) := by
          simp [popGE]
        rw [hpop]
      have hsplit : rest = rest.takeWhile (fun u => decide (s.level < u.level)) ++
          rest.dropWhile (fun u => decide (s.level < u.level)) :=
        (List.takeWhile_append_dropWhile _ _).symm
      have hlen2 : (rest.takeWhile (fun u => decide (s.level < u.level))).length ≤ n := by
        have h1 := ( List.takeWhile_prefix (l := rest)
          (fun u => decide (s.level < u.level))).length_le
        simp only [List.length_cons] at hlen
        omega
      have hin : ∀ u ∈ rest.takeWhile (fun u => decide (s.level < u.level)),
          s.level < u.level := by
        intro u hu
        simpa using List.mem_takeWhile_imp hu
      have hcond : rest.dropWhile (fun u => decide (s.level < u.level)) = [] ∨
          ∃ u rr, rest.dropWhile (fun u => decide (s.level < u.level)) = u :: rr ∧
            u.level ≤ s.level := by
        cases ha : rest.dropWhile (fun u => decide (s.level < u.level)) with
        | nil => left; rfl
        | cons u rr => right; exact ⟨u, rr, rfl, dropWhile_head_level ha⟩
      have hseg := nest_segment n _ hlen2
        (rest.dropWhile (fun u => decide (s.level < u.level))) s [] [] [] hin hcond
      rw [hstep]
      have hsplit2 : buildOutlineFrom rest [(s, [])] [] =
          buildOutlineFrom (rest.takeWhile (fun u => decide (s.level < u.level)) ++
            rest.dropWhile (fun u => decide (s.level < u.level))) [(s, [])] [] := by
        conv_lhs => rw [hsplit]
      rw [hsplit2, hseg]
      rcases hcond with hnil2 | ⟨u, rr, heq, hu⟩
      · rw [hnil2]
        conv_rhs => rw [nestSections]
        rw [hnil2]
        simp only [buildOutlineFrom, List.foldl_nil, drainStack, drainAttach,
          nestSections]
        simp
      · rw [heq]
        have hstep2 : buildOutlineFrom (u :: rr)
            [(s, (nestSections (rest.takeWhile (fun v => decide (s.level < v.level)))).reverse
              ++ [])] [] =
            buildOutlineFrom rr [(u, [])]
              [OutlineNode.mk s (nestSections
                (rest.takeWhile (fun v => decide (s.level < v.level))))] := by
          simp only [buildOutlineFrom, List.foldl_cons, buildOutlineStep]
          have hpop2 : popGE u.level
              [(s, (nestSections (rest.takeWhile (fun v => decide (s.level < v.level)))).reverse
                ++ [])] ([] : List OutlineNode) =
              ([], [OutlineNode.mk s (nestSections
                (rest.takeWhile (fun v => decide (s.level < v.level))))]) := by
            simp [popGE, if_pos hu, popAttach]
          rw [hpop2]
        rw [hstep2]
        rw [buildOutlineFrom_outline]
        have hback : buildOutlineFrom rr [(u, [])] [] = buildOutline (u :: rr) := by
          simp only [buildOutline, buildOutlineFrom, List.foldl_cons, buildOutlineStep]
          have hpop3 : popGE u.level [] ([] : List OutlineNode) = ([], []) := by
            simp [popGE]
          rw [hpop3]
        rw [hback]
        have hihafter : buildOutline (u :: rr) = nestSections (u :: rr) := by
          refine ih (u :: rr) ?_
          have h1 := (List.dropWhile_suffix (l := rest)
            (fun v => decide (s.level < v.level))).length_le
          rw [heq] at h1
          simp only [List.length_cons] at hlen h1 ⊢
          omega
        rw [hihafter]
        conv_rhs => rw [nestSections]
        rw [heq]
        simp

end Gdoc

namespace Gdoc

theorem buildOutline_eq_nestSections (ss : List DocSection) :
    buildOutline ss = nestSections ss :=
  buildOutline_eq_nest_aux ss.length ss le_rfl

theorem occursAt_le {text pat : List Char} {j : Nat} (hp : pat ≠ [])
    (h : occursAt text pat j) : j ≤ text.length := by
  by_contra hlt
  push_neg at hlt
  rw [occursAt, List.drop_eq_nil_of_le (by omega)] at h
  simp at h
  exact hp h

theorem jsIndexOfFrom_some {text pat : List Char} {i j : Nat}
    (h : jsIndexOfFrom text pat i = some j) :
    i ≤ j ∧ occursAt text pat j ∧ ∀ k, i ≤ k → k < j → ¬ occursAt text pat k := by
  rw [jsIndexOfFrom, List.find?_eq_some_iff_getElem] at h
  obtain ⟨hpj, idx, hidx, hval, hmin⟩ := h
  rw [List.getElem_range] at hval
  subst hval
  simp only [Bool.and_eq_true, decide_eq_true_eq] at hpj
  refine ⟨hpj.1, hpj.2, ?_⟩
  intro k hik hkj
  have hk : k < (List.range (text.length + 1)).length := by
    simp only [List.length_range] at hidx ⊢
    omega
  have := hmin k hkj
  rw [List.getElem_range] at this
  simp only [Bool.not_eq_eq_eq_not, Bool.not_true, Bool.and_eq_false_iff,
    decide_eq_false_iff_not] at this
  rcases this with h1 | h1
  · exact absurd hik h1
  · exact h1

theorem jsIndexOfFrom_none {text pat : List Char} {i : Nat} (hp : pat ≠ [])
    (h : jsIndexOfFrom text pat i = none) :
    ∀ k, i ≤ k → ¬ occursAt text pat k := by
  rw [jsIndexOfFrom, List.find?_eq_none] at h
  intro k hik hocc
  have hk : k ∈ List.range (text.length + 1) := by
    rw [List.mem_range]
    have := occursAt_le hp hocc
    omega
  have := h k hk
  simp only [Bool.and_eq_true, decide_eq_true_eq, not_and] at this
  exact this hik hocc

theorem searchScan_sound {text pat : List Char} :
    ∀ (fuel i : Nat), ∀ j ∈ searchScan text pat fuel i,
      i ≤ j ∧ occursAt text pat j := by
  intro fuel
  induction fuel with
  | zero => intro i j hj; simp [searchScan] at hj
  | succ fuel ih =>
    intro i j hj
    rw [searchScan] at hj
    cases hfind : jsIndexOfFrom text pat i with
    | none => rw [hfind] at hj; simp at hj
    | some j0 =>
      rw [hfind] at hj
      obtain ⟨h1, h2, _⟩ := jsIndexOfFrom_some hfind
      rcases List.mem_cons.mp hj with hj | hj
      · subst hj; exact ⟨h1, h2⟩
      · obtain ⟨h3, h4⟩ := ih (j0 + pat.length) j hj
        exact ⟨by omega, h4⟩

theorem searchScan_chain {text pat : List Char} :
    ∀ (fuel i : Nat),
      List.Chain' (fun a b => a + pat.length ≤ b) (searchScan text pat fuel i) := by
  intro fuel
  induction fuel with
  | zero => intro i; simp [searchScan]
  | succ fuel ih =>
    intro i
    rw [searchScan]
    cases hfind : jsIndexOfFrom text pat i with
    | none => simp
    | some j0 =>
      rw [List.chain'_cons']
      refine ⟨?_, ih (j0 + pat.length)⟩
      intro y hy
      have hmem := List.mem_of_mem_head? hy
      exact (searchScan_sound fuel (j0 + pat.length) y hmem).1

theorem searchScan_complete {text pat : List Char} (hp : pat ≠ []) :
    ∀ (fuel i : Nat), text.length + 1 ≤ fuel + i →
      ∀ k, i ≤ k → occursAt text pat k →
        ∃ j ∈ searchScan text pat fuel i, j ≤ k ∧ k < j + pat.length := by
  intro fuel
  induction fuel with
  | zero =>
    intro i hfuel k hik hocc
    have := occursAt_le hp hocc
    omega
  | succ fuel ih =>
    intro i hfuel k hik hocc
    rw [searchScan]
    cases hfind : jsIndexOfFrom text pat i with
    | none => exact absurd hocc (jsIndexOfFrom_none hp hfind k hik)
    | some j0 =>
      obtain ⟨h1, h2, hmin⟩ := jsIndexOfFrom_some hfind
      by_cases hk : k < j0 + pat.length
      · have hkj : j0 ≤ k := by
          by_contra hlt
          push_neg at hlt
          exact hmin k hik hlt hocc
        exact ⟨j0, by simp, hkj, hk⟩
      · push_neg at hk
        have hplen : 1 ≤ pat.length := by
          cases pat with
          | nil => exact absurd rfl hp
          | cons a l => simp
        obtain ⟨j, hj, hjk⟩ := ih (j0 + pat.length) (by omega) k (by omega) hocc
        exact ⟨j, by simp [hj], hjk⟩

theorem findOccurrences_spec {text pat : List Char} (hp : pat ≠ []) :
    (∀ j ∈ findOccurrences text pat, occursAt text pat j) ∧
    List.Chain' (fun a b => a + pat.length ≤ b) (findOccurrences text pat) ∧
    (∀ k, occursAt text pat k →
      ∃ j ∈ findOccurrences text pat, j ≤ k ∧ k < j + pat.length) := by
  refine ⟨?_, searchScan_chain _ _, ?_⟩
  · intro j hj
    exact (searchScan_sound _ _ j hj).2
  · intro k hocc
    exact searchScan_complete hp (text.length + 1) 0 (by omega) k (Nat.zero_le k) hocc

end Gdoc

namespace Gdoc

theorem searchInDocument_mem {doc : Document} {q : String} {sec : Option DocSection}
    {m : SearchMatch} (hm : m ∈ searchInDocument doc q sec) :
    ∃ e, e ∈ doc.content ∧ inSearchRange sec e ∧
      ∃ p, e.paragraph = some p ∧
      ∃ j, j ∈ findOccurrences (toLowerCase (extractTextFromParagraph p)).toList
              (toLowerCase q).toList ∧
        m.startIndex = e.startIndex + Int.ofNat j ∧
        m.endIndex = e.startIndex + Int.ofNat j + strLen q ∧
        m.paragraphIndex = e.startIndex ∧
        m.text = substring (extractTextFromParagraph p).toList j (j + q.length) ∧
        m.context = substring (extractTextFromParagraph p).toList (j - 20)
          (min (extractTextFromParagraph p).toList.length (j + q.length + 20)) := by
  rw [searchInDocument.eq_def, List.mem_flatMap] at hm
  obtain ⟨e, he, hmm⟩ := hm
  refine ⟨e, he, ?_⟩
  cases hp : e.paragraph with
  | none => simp [hp] at hmm
  | some p =>
    simp only [hp] at hmm
    cases sec with
    | none =>
      simp only [Bool.and_true, decide_eq_true_eq] at hmm
      by_cases hb : (0 : Int) ≤ e.startIndex
      · rw [if_pos (by simpa using hb)] at hmm
        refine ⟨hb, p, rfl, ?_⟩
        rw [paragraphMatches, List.mem_map] at hmm
        obtain ⟨j, hj, hmeq⟩ := hmm
        exact ⟨j, hj, by rw [← hmeq], by rw [← hmeq], by rw [← hmeq], by rw [← hmeq],
          by rw [← hmeq]⟩
      · rw [if_neg (by simpa using hb)] at hmm
        simp at hmm
    | some s =>
      by_cases hb1 : s.sectionStartIndex ≤ e.startIndex
      · by_cases hb2 : e.startIndex < s.sectionEndIndex
        · rw [if_pos (by simp [hb1, hb2])] at hmm
          refine ⟨⟨hb1, hb2⟩, p, rfl, ?_⟩
          rw [paragraphMatches, List.mem_map] at hmm
          obtain ⟨j, hj, hmeq⟩ := hmm
          exact ⟨j, hj, by rw [← hmeq], by rw [← hmeq], by rw [← hmeq], by rw [← hmeq],
            by rw [← hmeq]⟩
        · rw [if_neg (by simp [hb2])] at hmm
          simp at hmm
      · rw [if_neg (by simp [hb1])] at hmm
        simp at hmm

theorem searchInDocument_complete {doc : Document} {q : String}
    {sec : Option DocSection} {e : StructuralElement} {p : Paragraph} {j : Nat}
    (he : e ∈ doc.content) (hp : e.paragraph = some p) (hb : inSearchRange sec e)
    (hj : j ∈ findOccurrences (toLowerCase (extractTextFromParagraph p)).toList
      (toLowerCase q).toList) :
    ({ startIndex := e.startIndex + Int.ofNat j,
       endIndex := e.startIndex + Int.ofNat j + strLen q,
       text := substring (extractTextFromParagraph p).toList j (j + q.length),
       context := substring (extractTextFromParagraph p).toList (j - 20)
         (min (extractTextFromParagraph p).toList.length (j + q.length + 20)),
       paragraphIndex := e.startIndex } : SearchMatch) ∈
      searchInDocument doc q sec := by
  rw [searchInDocument.eq_def, List.mem_flatMap]
  refine ⟨e, he, ?_⟩
  simp only [hp]
  have hcond : ∀ (x : SearchMatch) lst, x ∈ lst →
      x ∈ (if ((decide ((match sec with
        | none => (0 : Int)
        | some s => s.sectionStartIndex) ≤ e.startIndex)) &&
          (match sec with
            | none => true
            | some s => decide (e.startIndex < s.sectionEndIndex))) = true
        then lst else []) := by
    intro x lst hx
    cases sec with
    | none =>
      rw [inSearchRange] at hb
      rw [if_pos (by simpa using hb)]
      exact hx
    | some s =>
      rw [inSearchRange] at hb
      rw [if_pos (by simp [hb.1, hb.2])]
      exact hx
  refine hcond _ _ ?_
  rw [paragraphMatches, List.mem_map]
  exact ⟨j, hj, rfl⟩

end Gdoc

namespace Gdoc

theorem sections_within {doc : Document} (hwf : WellFormedContent doc.content) :
    ∀ s ∈ parseDocumentSections doc,
      ((collectHeadings doc.content)[0]!).startIndex ≤ s.sectionStartIndex ∧
      s.sectionEndIndex ≤ docEndIndex doc.content := by
  intro s hs
  obtain ⟨i, hilen, hgi⟩ := List.mem_iff_getElem.mp hs
  have hilt : i < (collectHeadings doc.content).length := by rwa [parse_length] at hilen
  have hs_eq : s = (parseDocumentSections doc)[i]! := by
    rw [getElem!_pos (parseDocumentSections doc) i hilen]
    exact hgi.symm
  rw [hs_eq, parse_get doc i hilt]
  constructor
  · rcases Nat.eq_zero_or_pos i with h0 | h0
    · subst h0
      exact le_refl _
    · exact le_of_lt (headings_start_lt hwf h0 hilt)
  · exact sectionEnd_le_docEnd hwf hilt

/-- Evaluation of the section parser on the levels-[1,2,2,1] document. -/
theorem c6_sections_check :
    parseDocumentSections c6Doc =
      [⟨1, "Alpha", none, 1, 10, 10, 40, 1, 40⟩,
       ⟨2, "Beta", none, 10, 20, 20, 30, 10, 30⟩,
       ⟨2, "Gamma", none, 30, 40, 40, 40, 30, 40⟩,
       ⟨1, "Delta", none, 40, 50, 50, 60, 40, 60⟩] := by decide

/-- Evaluation of `buildOutline` on the levels-[1,2,2,1] document. -/
theorem c6_outline_check :
    buildOutline (parseDocumentSections c6Doc) =
      [.mk ⟨1, "Alpha", none, 1, 10, 10, 40, 1, 40⟩
        [.mk ⟨2, "Beta", none, 10, 20, 20, 30, 10, 30⟩ [],
         .mk ⟨2, "Gamma", none, 30, 40, 40, 40, 30, 40⟩ []],
       .mk ⟨1, "Delta", none, 40, 50, 50, 60, 40, 60⟩ []] := by rfl

/-- Evaluation of the section parser on the levels-[1,2] document: both
sections end at the document end, so their ranges overlap. -/
theorem c5_overlap_check :
    parseDocumentSections c5OverlapDoc =
      [⟨1, "A", none, 1, 10, 10, 30, 1, 30⟩,
       ⟨2, "B", none, 10, 20, 20, 30, 10, 30⟩] := by decide

/-- Evaluation of the search on the `"abc ABC abc"` document. -/
theorem c7_concrete_check :
    searchInDocument c7Doc "abc" none =
      [⟨1, 4, "abc", "abc ABC abc", 1⟩,
       ⟨5, 8, "ABC", "abc ABC abc", 1⟩,
       ⟨9, 12, "abc", "abc ABC abc", 1⟩] := by decide

end Gdoc

namespace Gdoc

/-!
## Claim theorems
-/

/-- Claim C1: for the markdown input `"# Title\n\nHello **world**"` (lexed
to `c1Tokens`), `convert` emits exactly, in order: InsertText `"Title\n"`
at index 1; SetParagraphStyle over `[1,6)` with `HEADING_1`; InsertText
`"Hello world\n"` at index 7; SetTextStyle over `[13,18)` with bold. -/
theorem c1_end_to_end_script :
    (convert c1Tokens).requests =
      [.insertText 1 "Title\n",
       .updateParagraphStyle ⟨1, 6⟩ "HEADING_1" "namedStyleType",
       .insertText 7 "Hello world\n",
       .updateTextStyle ⟨13, 18⟩ boldStyle "bold"] := by
  simp [convert, c1Tokens, processToken, addHeading, addParagraph, extractPlainText,
    applyInlineFormatting, strLen]
  decide

/-- Claim C2: for every token tree the final cursor equals 1 plus the
total inserted text length (first conjunct, proved in general); but the
claim's second half fails: on the loose-list tree `c2LooseItemTokens` the
final cursor is 6 while an emitted style operation carries range endpoint
8, because the inline pass advances text tokens by their raw markup
length. -/
theorem c2_cursor_accounting :
    (∀ tokens : List Tok,
      (convert tokens).currentIndex = 1 + insertedLen (convert tokens).requests) ∧
    ((convert c2LooseItemTokens).currentIndex = 6 ∧
      ∃ r ∈ (convert c2LooseItemTokens).requests, ∃ v ∈ opIndices r,
        (convert c2LooseItemTokens).currentIndex < v) := by
  refine ⟨convert_currentIndex_eq, c2_check_requests.2, ?_⟩
  refine ⟨.updateTextStyle ⟨7, 8⟩ boldStyle "bold", ?_, 8, ?_, ?_⟩
  · rw [c2_check_requests.1]
    simp
  · simp [opIndices]
  · rw [c2_check_requests.2]
    decide

/-- Claim C3: the inline-formatting pass advances the running offset of a
`text` token by its raw `text` field length, not by its rendered length:
in `c3Span` the first child renders to `"ab"` (length 2, so the claimed
offset for the following `em` token is 1 + 2 = 3), yet the emitted italic
range starts at 7 = 1 + length `"**ab**"`. -/
theorem c3_inline_offset_raw_length :
    applyInlineFormatting c3Span 1 0 =
      [.updateTextStyle ⟨1, 3⟩ boldStyle "bold",
       .updateTextStyle ⟨7, 8⟩ italicStyle "italic"] ∧
    strLen (extractPlainText [Tok.text "**ab**" [.strong "ab" [.text "ab" []]]]) = 2 ∧
    (1 : Int) + strLen (extractPlainText [Tok.text "**ab**" [.strong "ab" [.text "ab" []]]]) = 3 := by
  refine ⟨?_, ?_, ?_⟩
  · simp [c3Span, applyInlineFormatting, extractPlainText, strLen]
    decide
  · simp [extractPlainText, strLen]
    decide
  · simp [extractPlainText, strLen]
    decide

theorem c4_section_boundary (doc : Document) (i : Nat)
    (hi : i < (parseDocumentSections doc).length) :
    ((parseDocumentSections doc)[i]!).sectionStartIndex =
      ((collectHeadings doc.content)[i]!).startIndex ∧
    ((parseDocumentSections doc)[i]!).contentStartIndex =
      ((collectHeadings doc.content)[i]!).endIndex ∧
    ((parseDocumentSections doc)[i]!).contentEndIndex =
      ((parseDocumentSections doc)[i]!).sectionEndIndex ∧
    ((∃ j, i < j ∧ j < (collectHeadings doc.content).length ∧
        ((collectHeadings doc.content)[j]!).level ≤ ((collectHeadings doc.content)[i]!).level ∧
        (∀ j2, i < j2 → j2 < j →
          ((collectHeadings doc.content)[i]!).level < ((collectHeadings doc.content)[j2]!).level) ∧
        ((parseDocumentSections doc)[i]!).sectionEndIndex =
          ((collectHeadings doc.content)[j]!).startIndex) ∨
      ((∀ j, i < j → j < (collectHeadings doc.content).length →
          ((collectHeadings doc.content)[i]!).level < ((collectHeadings doc.content)[j]!).level) ∧
        ((parseDocumentSections doc)[i]!).sectionEndIndex = docEndIndex doc.content)) := by
  have hi' : i < (collectHeadings doc.content).length := by rwa [parse_length] at hi
  rw [parse_get doc i hi']
  exact ⟨rfl, rfl, rfl, sectionEnd_cases (collectHeadings doc.content) doc.content i hi'⟩


/-- Witness for C4 at the concrete levels-[1,2,2,1] document and `i = 0`. -/
theorem c4_section_boundary_witness :
    0 < (parseDocumentSections c6Doc).length ∧
    ((parseDocumentSections c6Doc)[0]!).sectionStartIndex =
      ((collectHeadings c6Doc.content)[0]!).startIndex ∧
    ((parseDocumentSections c6Doc)[0]!).contentEndIndex =
      ((parseDocumentSections c6Doc)[0]!).sectionEndIndex := by
  have h := c4_section_boundary c6Doc 0 (by decide)
  exact ⟨by decide, h.1, h.2.2.1⟩

/-- Counterexample to C5 as stated: on a well-formed document with heading
levels [1, 2], `parseDocumentSections` returns two distinct sections whose
`sectionRange`s overlap (the deeper section's range is contained in its
ancestor's), so the flat list does not tile the interval disjointly. -/
theorem c5_flat_sections_overlap :
    WellFormedContent c5OverlapDoc.content ∧
    ∃ s1 ∈ parseDocumentSections c5OverlapDoc,
      ∃ s2 ∈ parseDocumentSections c5OverlapDoc,
        s1 ≠ s2 ∧ s2.sectionStartIndex < s1.sectionEndIndex ∧
          s1.sectionStartIndex < s2.sectionEndIndex ∧
          s1.sectionStartIndex ≤ s2.sectionStartIndex := by
  constructor
  · constructor
    · decide
    · simp only [c5OverlapDoc, headingElem, bodyElem, List.chain'_cons,
        List.chain'_singleton]
      decide
  · rw [c5_overlap_check]
    refine ⟨⟨1, "A", none, 1, 10, 10, 30, 1, 30⟩, by simp,
      ⟨2, "B", none, 10, 20, 20, 30, 10, 30⟩, by simp, by decide, by decide, by decide,
      by decide⟩

/-- Claim C5 (amended): on a well-formed document, the flat section list is
ordered by `sectionStartIndex`; every section range lies inside
`[first heading start, document end)`; every point of that interval is
covered by some section (no gaps); and a section's content range is empty
iff no structural element starts inside it (`extractSectionContent` is
empty).  Overlap-freeness, the part the counterexample refutes, is
dropped. -/
theorem c5_sections_cover_amended :
    (∀ doc : Document, WellFormedContent doc.content →
      List.Pairwise (fun s1 s2 : DocSection =>
        s1.sectionStartIndex < s2.sectionStartIndex) (parseDocumentSections doc)) ∧
    (∀ doc : Document, WellFormedContent doc.content →
      ∀ s ∈ parseDocumentSections doc,
        ((collectHeadings doc.content)[0]!).startIndex ≤ s.sectionStartIndex ∧
        s.sectionEndIndex ≤ docEndIndex doc.content) ∧
    (∀ doc : Document, WellFormedContent doc.content →
      collectHeadings doc.content ≠ [] →
      ∀ x : Int, ((collectHeadings doc.content)[0]!).startIndex ≤ x →
        x < docEndIndex doc.content →
        ∃ s ∈ parseDocumentSections doc,
          s.sectionStartIndex ≤ x ∧ x < s.sectionEndIndex) ∧
    (∀ doc : Document, WellFormedContent doc.content →
      ∀ s ∈ parseDocumentSections doc,
        (s.contentEndIndex ≤ s.contentStartIndex ↔ extractSectionContent doc s = [])) := by
  refine ⟨?_, ?_, ?_, ?_⟩
  · intro doc hwf
    exact sections_pairwise_start hwf
  · intro doc hwf
    exact sections_within hwf
  · intro doc hwf hne x hx0 hxe
    exact sections_cover hwf hne hx0 hxe
  · intro doc hwf
    exact content_empty_iff hwf

/-- Witness for the amended C5 at the concrete levels-[1,2,2,1] document
and point 25. -/
theorem c5_sections_cover_amended_witness :
    WellFormedContent c6Doc.content ∧
    (∃ s ∈ parseDocumentSections c6Doc,
      s.sectionStartIndex ≤ 25 ∧ (25 : Int) < s.sectionEndIndex) := by
  have hwf : WellFormedContent c6Doc.content := by
    constructor
    · decide
    · simp only [c6Doc, headingElem, bodyElem, List.chain'_cons, List.chain'_singleton]
      decide
  exact ⟨hwf, c5_sections_cover_amended.2.2.1 c6Doc hwf (by decide) 25 (by decide)
    (by decide)⟩

/-- Claim C6: the stack pass of `buildOutline` computes exactly the
declarative nesting (each section's children are the maximal run of
strictly deeper sections following it), proved for every section list; and
for the levels-[1,2,2,1] document, the first section's content range ends
exactly at the 4th heading's start index, the two level-2 sections are
children of the first level-1 section, and the 4th section is a second
top-level entry. -/
theorem c6_outline_stack_pass :
    (∀ sections : List DocSection, buildOutline sections = nestSections sections) ∧
    parseDocumentSections c6Doc =
      [⟨1, "Alpha", none, 1, 10, 10, 40, 1, 40⟩,
       ⟨2, "Beta", none, 10, 20, 20, 30, 10, 30⟩,
       ⟨2, "Gamma", none, 30, 40, 40, 40, 30, 40⟩,
       ⟨1, "Delta", none, 40, 50, 50, 60, 40, 60⟩] ∧
    ((parseDocumentSections c6Doc)[0]!).contentEndIndex =
      ((collectHeadings c6Doc.content)[3]!).startIndex ∧
    buildOutline (parseDocumentSections c6Doc) =
      [.mk ⟨1, "Alpha", none, 1, 10, 10, 40, 1, 40⟩
        [.mk ⟨2, "Beta", none, 10, 20, 20, 30, 10, 30⟩ [],
         .mk ⟨2, "Gamma", none, 30, 40, 40, 40, 30, 40⟩ []],
       .mk ⟨1, "Delta", none, 40, 50, 50, 60, 40, 60⟩ []] :=
  ⟨buildOutline_eq_nestSections, c6_sections_check, by decide, c6_outline_check⟩

end Gdoc

namespace Gdoc

/-- Claim C7: `searchInDocument` on the `"abc ABC abc"` document with query
`"abc"` returns exactly 3 matches; every reported match comes from a
paragraph element whose start index lies in the bounding range, at an
absolute position equal to the paragraph start plus the in-text offset of
a lower-cased occurrence, with `endIndex = startIndex + query length` and
a ±20-character context window clipped to the paragraph text; conversely
every occurrence in an in-range paragraph is reported; and for a nonempty
pattern the occurrence scan is sound, non-overlapping (consecutive hits
are at least a pattern length apart) and leftmost-greedy complete. -/
theorem c7_search_engine :
    (searchInDocument c7Doc "abc" none =
      [⟨1, 4, "abc", "abc ABC abc", 1⟩,
       ⟨5, 8, "ABC", "abc ABC abc", 1⟩,
       ⟨9, 12, "abc", "abc ABC abc", 1⟩]) ∧
    (∀ (doc : Document) (q : String) (sec : Option DocSection) (m : SearchMatch),
      m ∈ searchInDocument doc q sec →
      ∃ e, e ∈ doc.content ∧ inSearchRange sec e ∧
        ∃ p, e.paragraph = some p ∧
        ∃ j, j ∈ findOccurrences (toLowerCase (extractTextFromParagraph p)).toList
                (toLowerCase q).toList ∧
          m.startIndex = e.startIndex + Int.ofNat j ∧
          m.endIndex = e.startIndex + Int.ofNat j + strLen q ∧
          m.paragraphIndex = e.startIndex ∧
          m.text = substring (extractTextFromParagraph p).toList j (j + q.length) ∧
          m.context = substring (extractTextFromParagraph p).toList (j - 20)
            (min (extractTextFromParagraph p).toList.length (j + q.length + 20))) ∧
    (∀ (doc : Document) (q : String) (sec : Option DocSection)
        (e : StructuralElement) (p : Paragraph) (j : Nat),
      e ∈ doc.content → e.paragraph = some p → inSearchRange sec e →
      j ∈ findOccurrences (toLowerCase (extractTextFromParagraph p)).toList
        (toLowerCase q).toList →
      ({ startIndex := e.startIndex + Int.ofNat j,
         endIndex := e.startIndex + Int.ofNat j + strLen q,
         text := substring (extractTextFromParagraph p).toList j (j + q.length),
         context := substring (extractTextFromParagraph p).toList (j - 20)
           (min (extractTextFromParagraph p).toList.length (j + q.length + 20)),
         paragraphIndex := e.startIndex } : SearchMatch) ∈
        searchInDocument doc q sec) ∧
    (∀ text pat : List Char, pat ≠ [] →
      (∀ j ∈ findOccurrences text pat, occursAt text pat j) ∧
      List.Chain' (fun a b => a + pat.length ≤ b) (findOccurrences text pat) ∧
      (∀ k, occursAt text pat k →
        ∃ j ∈ findOccurrences text pat, j ≤ k ∧ k < j + pat.length)) := by
  refine ⟨c7_concrete_check, ?_, ?_, ?_⟩
  · intro doc q sec m hm
    exact searchInDocument_mem hm
  · intro doc q sec e p j he hp hb hj
    exact searchInDocument_complete he hp hb hj
  · intro text pat hp
    exact findOccurrences_spec hp

/-- Witness for C7: occurrence soundness applied to a concrete nonempty
pattern, and the match-inversion conjunct applied to the first concrete
match. -/
theorem c7_search_engine_witness :
    ((['a'] : List Char) ≠ [] ∧
      ∀ j ∈ findOccurrences ['b', 'a', 'b'] ['a'], occursAt ['b', 'a', 'b'] ['a'] j) ∧
    ((⟨1, 4, "abc", "abc ABC abc", 1⟩ : SearchMatch) ∈ searchInDocument c7Doc "abc" none ∧
      ∃ e, e ∈ c7Doc.content ∧ inSearchRange none e ∧
        ∃ p, e.paragraph = some p ∧
        ∃ j, j ∈ findOccurrences (toLowerCase (extractTextFromParagraph p)).toList
                (toLowerCase "abc").toList ∧
          (⟨1, 4, "abc", "abc ABC abc", 1⟩ : SearchMatch).startIndex =
            e.startIndex + Int.ofNat j ∧
          (⟨1, 4, "abc", "abc ABC abc", 1⟩ : SearchMatch).endIndex =
            e.startIndex + Int.ofNat j + strLen "abc" ∧
          (⟨1, 4, "abc", "abc ABC abc", 1⟩ : SearchMatch).paragraphIndex = e.startIndex ∧
          (⟨1, 4, "abc", "abc ABC abc", 1⟩ : SearchMatch).text =
            substring (extractTextFromParagraph p).toList j (j + "abc".length) ∧
          (⟨1, 4, "abc", "abc ABC abc", 1⟩ : SearchMatch).context =
            substring (extractTextFromParagraph p).toList (j - 20)
              (min (extractTextFromParagraph p).toList.length (j + "abc".length + 20))) := by
  constructor
  · exact ⟨by decide, (c7_search_engine.2.2.2 ['b', 'a', 'b'] ['a'] (by decide)).1⟩
  · have hm : (⟨1, 4, "abc", "abc ABC abc", 1⟩ : SearchMatch) ∈
        searchInDocument c7Doc "abc" none := by decide
    exact ⟨hm, c7_search_engine.2.1 c7Doc "abc" none _ hm⟩

/-- Claim C8: the flattener uses a node's nested child sequence whenever it
is nonempty; it falls back to the literal text field for childless
`text`/`codespan`/`code` nodes; a `space` node contributes a single space;
and the token tree of `"**bold *and* nested**"` flattens to
`"bold and nested"` with no asterisk characters. -/
theorem c8_plain_text_flattener :
    (∀ t ts, Tok.children t ≠ [] →
      extractPlainText (t :: ts) = extractPlainText t.children ++ extractPlainText ts) ∧
    (∀ s ts, extractPlainText (.text s [] :: ts) = s ++ extractPlainText ts) ∧
    (∀ s ts, extractPlainText (.codespan s :: ts) = s ++ extractPlainText ts) ∧
    (∀ s ts, extractPlainText (.code s :: ts) = s ++ extractPlainText ts) ∧
    (∀ ts, extractPlainText (.space :: ts) = " " ++ extractPlainText ts) ∧
    extractPlainText [c8BoldTok] = "bold and nested" ∧
    '*' ∉ (extractPlainText [c8BoldTok]).toList := by
  refine ⟨?_, ?_, ?_, ?_, ?_, ?_, ?_⟩
  · intro t ts h
    cases t <;> simp_all [extractPlainText, Tok.children]
  · intro s ts
    simp [extractPlainText]
  · intro s ts
    simp [extractPlainText]
  · intro s ts
    simp [extractPlainText]
  · intro ts
    simp [extractPlainText]
  · simp [c8BoldTok, extractPlainText]
  · have h : extractPlainText [c8BoldTok] = "bold and nested" := by
      simp [c8BoldTok, extractPlainText]
    rw [h]
    decide

/-- Witness for C8: the recurse-into-children rule applied to a concrete
`em` node with a nonempty child list. -/
theorem c8_plain_text_flattener_witness :
    Tok.children (Tok.em "mk" [Tok.text "y" []]) ≠ [] ∧
    extractPlainText (Tok.em "mk" [Tok.text "y" []] :: []) =
      extractPlainText (Tok.children (Tok.em "mk" [Tok.text "y" []])) ++
        extractPlainText [] :=
  ⟨by simp [Tok.children], c8_plain_text_flattener.1 (Tok.em "mk" [Tok.text "y" []]) []
    (by simp [Tok.children])⟩

/-- Claim C9: rebasing a script by `k` and then by `-k` restores every
index-bearing field of every operation (the rebaser itself is modelled
from the spec, §4.6). -/
theorem c9_rebase_roundtrip (rs : List Request) (k : Int) :
    rebaseRequests (-k) (rebaseRequests k rs) = rs := by
  induction rs with
  | nil => rfl
  | cons r rest ih =>
    have hr : rebaseRequest (-k) (rebaseRequest k r) = r := by
      cases r with
      | insertText i t => simp [rebaseRequest, add_neg_cancel_right]
      | updateTextStyle rg st f =>
        cases rg
        simp [rebaseRequest, add_neg_cancel_right]
      | updateParagraphStyle rg n f =>
        cases rg
        simp [rebaseRequest, add_neg_cancel_right]
      | createParagraphBullets rg b =>
        cases rg
        simp [rebaseRequest, add_neg_cancel_right]
      | deleteContentRange rg =>
        cases rg
        simp [rebaseRequest, add_neg_cancel_right]
    simp only [rebaseRequests, List.map_cons] at ih ⊢
    rw [hr, ih]

/-- Claim C10: `createDeleteSectionContentRequest` returns `null` exactly
for an empty content range and otherwise deletes
`[contentStartIndex, contentEndIndex - 1)`; `createDeleteSectionRequest`
always deletes `[sectionStartIndex, sectionEndIndex - 1)`. -/
theorem c10_delete_requests (sec : DocSection) :
    (createDeleteSectionContentRequest sec = none ↔
      sec.contentEndIndex ≤ sec.contentStartIndex) ∧
    (sec.contentStartIndex < sec.contentEndIndex →
      createDeleteSectionContentRequest sec =
        some (.deleteContentRange ⟨sec.contentStartIndex, sec.contentEndIndex - 1⟩)) ∧
    createDeleteSectionRequest sec =
      .deleteContentRange ⟨sec.sectionStartIndex, sec.sectionEndIndex - 1⟩ := by
  refine ⟨?_, ?_, rfl⟩
  · rw [createDeleteSectionContentRequest]
    constructor
    · intro h
      by_contra hlt
      rw [if_neg (by omega)] at h
      simp at h
    · intro h
      rw [if_pos (by omega)]
  · intro h
    rw [createDeleteSectionContentRequest, if_neg (by omega)]

/-- Witness for C10 at a concrete section with nonempty content range. -/
theorem c10_delete_requests_witness :
    c10Sec.contentStartIndex < c10Sec.contentEndIndex ∧
    createDeleteSectionContentRequest c10Sec =
      some (.deleteContentRange ⟨c10Sec.contentStartIndex, c10Sec.contentEndIndex - 1⟩) :=
  ⟨by decide, (c10_delete_requests c10Sec).2.1 (by decide)⟩

end Gdoc
